import Mathlib

/-
  Verification of core properties of the rx large-file search engine
  (src/rx/...): line-offset index construction and queries
  (unified_index.py), path sandbox validation (path_security.py), index
  rebuild policy (unified_index.py), trace-cache eligibility and keying
  (trace_cache.py), multi-file worker scheduling (scheduler.py), and the
  seekable zstd container round trip (seekable_zstd.py).

  Byte strings are embedded as `List Nat`, one entry per byte; the newline
  byte is 10.  Python's binary-mode file iteration, which yields
  newline-terminated lines (the final line possibly unterminated), is
  embedded by `splitLines`.
-/

set_option maxHeartbeats 1000000

/-! ## Byte streams and Python line iteration -/

/-- Accumulator-based worker for `splitLines`.  `acc` holds the bytes of the
current (unfinished) line in reverse order. -/
def splitLinesAux : List Nat → List Nat → List (List Nat)
  | [], acc => if acc.isEmpty then [] else [acc.reverse]
  | b :: rest, acc =>
    if b = 10 then (acc.reverse ++ [10]) :: splitLinesAux rest []
    else splitLinesAux rest (b :: acc)

/-- Python's `for line in f` over a binary file: split after every newline
byte; every produced line ends with 10 except possibly the last one. -/
def splitLines (bs : List Nat) : List (List Nat) := splitLinesAux bs []

/-- Number of lines Python's line iteration yields for the byte stream. -/
def numLines (bs : List Nat) : Nat := (splitLines bs).length

/-- Sum of the byte lengths of the first `k` lines: the byte offset at which
line `k+1` would start. -/
def sumLen (ls : List (List Nat)) (k : Nat) : Nat := ((ls.take k).map List.length).sum

/-- Ground truth: byte offset of the start of (1-based) line `L`; for
`L = numLines + 1` this is the total size of the stream. -/
def offsetOfLine (bs : List Nat) (L : Nat) : Nat := sumLen (splitLines bs) (L - 1)

theorem splitLinesAux_flatten (bs : List Nat) :
    ∀ acc, (splitLinesAux bs acc).flatten = acc.reverse ++ bs := by
  induction bs with
  | nil =>
    intro acc
    by_cases h : acc.isEmpty
    · simp [splitLinesAux, h, List.isEmpty_iff.mp h]
    · simp [splitLinesAux, h]
  | cons b rest ih =>
    intro acc
    by_cases h : b = 10
    · simp [splitLinesAux, h, ih]
    · simp [splitLinesAux, h, ih]

/-- Concatenating the lines recovers the byte stream. -/
theorem splitLines_flatten (bs : List Nat) : (splitLines bs).flatten = bs := by
  simpa using splitLinesAux_flatten bs []

theorem splitLinesAux_ne_nil (bs : List Nat) :
    ∀ acc l, l ∈ splitLinesAux bs acc → l ≠ [] := by
  induction bs with
  | nil =>
    intro acc l hl
    by_cases h : acc.isEmpty
    · simp [splitLinesAux, h] at hl
    · simp [splitLinesAux, h] at hl
      subst hl
      intro hrev
      exact h (by simp [List.isEmpty_iff, List.reverse_eq_nil_iff.mp hrev])
  | cons b rest ih =>
    intro acc l hl
    by_cases h : b = 10
    · simp [splitLinesAux, h] at hl
      rcases hl with hl | hl
      · subst hl; simp
      · exact ih [] l hl
    · simp [splitLinesAux, h] at hl
      exact ih (b :: acc) l hl

/-- Every line produced by `splitLines` is non-empty. -/
theorem splitLines_ne_nil {bs l : List Nat} (hl : l ∈ splitLines bs) : l ≠ [] :=
  splitLinesAux_ne_nil bs [] l hl

theorem splitLinesAux_getLast (bs : List Nat) :
    ∀ acc l, l ∈ (splitLinesAux bs acc).dropLast → l.getLast? = some 10 := by
  induction bs with
  | nil =>
    intro acc l hl
    by_cases h : acc.isEmpty <;> simp [splitLinesAux, h] at hl
  | cons b rest ih =>
    intro acc l hl
    by_cases h : b = 10
    · simp only [splitLinesAux, if_pos h] at hl
      rcases List.eq_nil_or_concat (splitLinesAux rest []) with he | ⟨ys, y, hy⟩
      · simp [he] at hl
      · rw [hy, ← List.concat_cons, List.concat_eq_append, List.dropLast_concat] at hl
        rcases List.mem_cons.mp hl with hl | hl
        · subst hl; simp
        · have : l ∈ (splitLinesAux rest []).dropLast := by
            rw [hy, List.concat_eq_append, List.dropLast_concat]
            exact hl
          exact ih [] l this
    · simp only [splitLinesAux, if_neg h] at hl
      exact ih (b :: acc) l hl

/-- Every line except possibly the last ends with the newline byte. -/
theorem splitLines_dropLast_getLast {bs l : List Nat}
    (hl : l ∈ (splitLines bs).dropLast) : l.getLast? = some 10 :=
  splitLinesAux_getLast bs [] l hl

theorem splitLinesAux_last_of_nl (bs : List Nat) (hbs : bs.getLast? = some 10) :
    ∀ acc l, l ∈ splitLinesAux bs acc → l.getLast? = some 10 := by
  induction bs with
  | nil => simp at hbs
  | cons b rest ih =>
    intro acc l hl
    cases rest with
    | nil =>
      simp at hbs
      subst hbs
      simp [splitLinesAux] at hl
      subst hl
      simp
    | cons c cs =>
      have hrest : (c :: cs).getLast? = some 10 := by
        simpa [List.getLast?_cons_cons] using hbs
      by_cases h : b = 10
      · simp only [splitLinesAux, if_pos h] at hl
        rcases List.mem_cons.mp hl with hl | hl
        · subst hl; simp
        · exact ih hrest [] l hl
      · simp only [splitLinesAux, if_neg h] at hl
        exact ih hrest (b :: acc) l hl

/-- If the byte stream ends with a newline, every line ends with a newline. -/
theorem splitLines_all_end_nl {bs l : List Nat} (hbs : bs.getLast? = some 10)
    (hl : l ∈ splitLines bs) : l.getLast? = some 10 :=
  splitLinesAux_last_of_nl bs hbs [] l hl

theorem flatten_getLast_nl :
    ∀ ls : List (List Nat), ls ≠ [] → (∀ l ∈ ls, l ≠ []) →
      (∀ l ∈ ls, l.getLast? = some 10) → ls.flatten.getLast? = some 10 := by
  intro ls
  induction ls with
  | nil => intro h; exact absurd rfl h
  | cons l rest ih =>
    intro _ hne h10
    cases rest with
    | nil => simpa using h10 l (by simp)
    | cons m ms =>
      have hrec : (m :: ms).flatten.getLast? = some 10 := by
        apply ih (by simp)
        · intro x hx; exact hne x (List.mem_cons_of_mem l hx)
        · intro x hx; exact h10 x (List.mem_cons_of_mem l hx)
      have hfl : (m :: ms).flatten ≠ [] := by
        intro hemp
        rw [hemp] at hrec
        simp at hrec
      rw [List.flatten_cons, List.getLast?_append_of_ne_nil _ hfl]
      exact hrec

/-- Byte-level heart of the checkpoint invariant: if every line of
`bs` ends with a newline, then the byte just before the cumulative length
of the first `k` lines (1 ≤ k ≤ number of lines) is a newline. -/
theorem byte_before_sumLen (bs : List Nat) (k : Nat) (h10 : ∀ l ∈ splitLines bs, l.getLast? = some 10)
    (hk1 : 1 ≤ k) (hk2 : k ≤ numLines bs) :
    bs[sumLen (splitLines bs) k - 1]? = some 10 := by
  set ls := splitLines bs with hls
  have hlen_ls : ls.length = numLines bs := rfl
  have htake_ne : ls.take k ≠ [] := by
    intro h
    have h1 := congrArg List.length h
    rw [List.length_take] at h1
    simp only [List.length_nil] at h1
    omega
  have hmem_take : ∀ l ∈ ls.take k, l ∈ ls := fun l hl => List.mem_of_mem_take hl
  have hne : ∀ l ∈ ls.take k, l ≠ [] := fun l hl => splitLines_ne_nil (hls ▸ hmem_take l hl)
  have h10' : ∀ l ∈ ls.take k, l.getLast? = some 10 := fun l hl => h10 l (hmem_take l hl)
  have hlastnl : (ls.take k).flatten.getLast? = some 10 :=
    flatten_getLast_nl (ls.take k) htake_ne hne h10'
  have hlen : (ls.take k).flatten.length = sumLen ls k := by
    simp [sumLen, List.length_flatten]
  have hpos : 1 ≤ sumLen ls k := by
    rcases List.exists_mem_of_ne_nil _ htake_ne with ⟨l, hl⟩
    have hl1 : 1 ≤ l.length := List.length_pos.mpr (hne l hl)
    calc 1 ≤ l.length := hl1
    _ ≤ ((ls.take k).map List.length).sum := List.single_le_sum (by simp) _ (List.mem_map_of_mem _ hl)
    _ = sumLen ls k := by simp [sumLen]
  have hsplit : bs = (ls.take k).flatten ++ (ls.drop k).flatten := by
    conv_lhs => rw [← splitLines_flatten bs]
    rw [← hls, ← List.flatten_append, List.take_append_drop]
  rw [hsplit]
  rw [List.getElem?_append_left (by omega)]
  rw [← hlen]
  rw [← List.getLast?_eq_getElem?]
  exact hlastnl

/-! ## build_index (unified_index.py, line-offset index construction)

The statistics accumulated alongside the index (line-length reservoir,
means, line-ending sample) do not feed back into the checkpoint list; the
embedding keeps only the state that determines `line_index`. -/

/-- The `for line in f` loop body of `build_index`: after a line is
consumed, when `current_offset` has reached `next_checkpoint` the start of
the *next* line `(current_line + 1, current_offset)` is appended. -/
def build_index_loop (step : Nat) :
    List (List Nat) → Nat → Nat → Nat → List (Nat × Nat) → List (Nat × Nat)
  | [], _, _, _, idx => idx
  | line :: rest, current_offset, current_line, next_checkpoint, idx =>
    let current_line' := current_line + 1
    let current_offset' := current_offset + line.length
    if next_checkpoint ≤ current_offset' then
      build_index_loop step rest current_offset' current_line' (current_offset' + step)
        (idx ++ [(current_line' + 1, current_offset')])
    else
      build_index_loop step rest current_offset' current_line' next_checkpoint idx

/-- `build_index(source, step).line_index`: checkpoints start at `[1, 0]`. -/
def build_index_line_index (bs : List Nat) (step : Nat) : List (Nat × Nat) :=
  build_index_loop step (splitLines bs) 0 0 step [(1, 0)]

theorem build_index_loop_mem (step : Nat) :
    ∀ (ls : List (List Nat)) (co cl ncp : Nat) (idx : List (Nat × Nat)) (e : Nat × Nat),
      e ∈ build_index_loop step ls co cl ncp idx →
      e ∈ idx ∨ ∃ j, 1 ≤ j ∧ j ≤ ls.length ∧ e = (cl + j + 1, co + sumLen ls j) := by
  intro ls
  induction ls with
  | nil =>
    intro co cl ncp idx e he
    exact Or.inl he
  | cons l rest ih =>
    intro co cl ncp idx e he
    have hsum : ∀ j, sumLen (l :: rest) (j + 1) = l.length + sumLen rest j := by
      intro j
      simp [sumLen, List.take_cons]
    by_cases hcp : ncp ≤ co + l.length
    · simp only [build_index_loop, if_pos hcp] at he
      rcases ih _ _ _ _ e he with hin | ⟨j, hj1, hj2, hj3⟩
      · rcases List.mem_append.mp hin with hin | hin
        · exact Or.inl hin
        · right
          refine ⟨1, le_refl 1, by simp, ?_⟩
          simp at hin
          rw [hin, hsum 0]
          simp [sumLen]
      · right
        refine ⟨j + 1, by omega, by simp; omega, ?_⟩
        rw [hj3, hsum j]
        simp only [Prod.mk.injEq]
        omega
    · simp only [build_index_loop, if_neg hcp] at he
      rcases ih _ _ _ _ e he with hin | ⟨j, hj1, hj2, hj3⟩
      · exact Or.inl hin
      · right
        refine ⟨j + 1, by omega, by simp; omega, ?_⟩
        rw [hj3, hsum j]
        simp only [Prod.mk.injEq]
        omega

/-- C4 (claim as frozen, refuted): `build_index` can emit a checkpoint at
end-of-file after a final line with no terminator; the byte before that
offset is not a newline.  File `b"aaaa"` with `step_bytes = 2` yields the
checkpoint `(2, 4)`, and byte 3 is `a`, not `\n`. -/
theorem c4_counterexample :
    (2, 4) ∈ build_index_line_index [97, 97, 97, 97] 2 ∧ 0 < 4 ∧
      ¬ ([97, 97, 97, 97] : List Nat)[4 - 1]? = some 10 := by
  decide

/-- C4 (amended): for every file that ends with a line terminator, every
checkpoint `(L, O)` of `build_index` with `O > 0` has a newline byte at
offset `O - 1`. -/
theorem c4_checkpoint_follows_newline (bs : List Nat) (step L O : Nat)
    (hlast : bs.getLast? = some 10)
    (hmem : (L, O) ∈ build_index_line_index bs step) (hO : 0 < O) :
    bs[O - 1]? = some 10 := by
  rcases build_index_loop_mem step (splitLines bs) 0 0 step [(1, 0)] (L, O) hmem with
    hin | ⟨j, hj1, hj2, hj3⟩
  · simp at hin
    omega
  · have hO' : O = sumLen (splitLines bs) j := by
      have := congrArg Prod.snd hj3
      simpa using this
    rw [hO']
    exact byte_before_sumLen bs j (fun l hl => splitLines_all_end_nl hlast hl) hj1 hj2

/-- Witness for C4 at a concrete input: file `b"a\nb\n"`, step 2, has the
checkpoint `(2, 2)` and byte 1 is a newline. -/
theorem c4_witness :
    ([97, 10, 98, 10] : List Nat).getLast? = some 10 ∧
      (2, 2) ∈ build_index_line_index [97, 10, 98, 10] 2 ∧ 0 < 2 ∧
      ([97, 10, 98, 10] : List Nat)[2 - 1]? = some 10 :=
  ⟨by decide, by decide, by decide,
    c4_checkpoint_follows_newline [97, 10, 98, 10] 2 2 2 (by decide) (by decide) (by decide)⟩

/-! ## Line/offset queries (unified_index.py)

`calculate_exact_offset_for_line` and `calculate_exact_line_for_offset`
are embedded over the file contents `bs`, an optional cached line index,
and the large-file threshold.  File-system errors (`OSError`), which make
the Python functions return `-1`, have no counterpart for an in-memory
byte list.  Results are `Int` so that the `-1` sentinel is representable. -/

/-- Model of Python's `bisect.bisect_right(a, x)` by its documented
semantics on sorted input: the index of the first element greater than
`x` (= the number of leading elements `≤ x`). -/
def bisect_right : List Nat → Nat → Nat
  | [], _ => 0
  | x :: xs, t => if t < x then 0 else bisect_right xs t + 1

/-- `find_line_offset(line_index, target_line)`: rightmost checkpoint with
line number `≤ target_line` (clamped to the first entry). -/
def find_line_offset (line_index : List (Nat × Nat)) (target_line : Nat) : Nat × Nat :=
  if line_index.isEmpty then (1, 0)
  else
    let lines := line_index.map Prod.fst
    let idx := bisect_right lines target_line - 1
    line_index.getD idx (1, 0)

/-- The `for line_bytes in f` scan of `calculate_exact_offset_for_line`
after seeking to an indexed position: test, then advance. -/
def scan_offset_from_index : List (List Nat) → Nat → Nat → Nat → Int
  | [], _, _, _ => -1
  | l :: ls, current_line, current_offset, target =>
    if current_line = target then (current_offset : Int)
    else scan_offset_from_index ls (current_line + 1) (current_offset + l.length) target

/-- The scan of `calculate_exact_offset_for_line` on a small un-indexed
file: increment the line counter, then test. -/
def scan_offset_small : List (List Nat) → Nat → Nat → Nat → Int
  | [], _, _, _ => -1
  | l :: ls, current_line, current_offset, target =>
    if current_line + 1 = target then (current_offset : Int)
    else scan_offset_small ls (current_line + 1) (current_offset + l.length) target

/-- The scan of `calculate_exact_line_for_offset` after seeking to an
indexed position: a line owns every offset in `[start, start+len)`. -/
def scan_line_from_index : List (List Nat) → Nat → Nat → Nat → Int
  | [], _, _, _ => -1
  | l :: ls, current_line, current_offset, target =>
    if current_offset = target then (current_line : Int)
    else if target < current_offset + l.length then (current_line : Int)
    else scan_line_from_index ls (current_line + 1) (current_offset + l.length) target

/-- The scan of `calculate_exact_line_for_offset` on a small un-indexed
file: increment the line counter, then test. -/
def scan_line_small : List (List Nat) → Nat → Nat → Nat → Int
  | [], _, _, _ => -1
  | l :: ls, current_line, current_offset, target =>
    if current_offset = target then (current_line + 1 : Int)
    else if target < current_offset + l.length then (current_line + 1 : Int)
    else scan_line_small ls (current_line + 1) (current_offset + l.length) target

/-- `calculate_exact_offset_for_line(filename, target_line, index)`.
The `index and index.line_index` guard sends an absent or empty index to
the size-gated whole-file scan. -/
def calculate_exact_offset_for_line (bs : List Nat) (index : Option (List (Nat × Nat)))
    (threshold : Nat) (target_line : Nat) : Int :=
  match index with
  | some line_index =>
    if line_index.isEmpty then
      if threshold < bs.length then -1
      else scan_offset_small (splitLines bs) 0 0 target_line
    else
      let p := find_line_offset line_index target_line
      if p.1 = target_line then (p.2 : Int)
      else scan_offset_from_index (splitLines (bs.drop p.2)) p.1 p.2 target_line
  | none =>
    if threshold < bs.length then -1
    else scan_offset_small (splitLines bs) 0 0 target_line

/-- `calculate_exact_line_for_offset(filename, target_offset, index)`. -/
def calculate_exact_line_for_offset (bs : List Nat) (index : Option (List (Nat × Nat)))
    (threshold : Nat) (target_offset : Nat) : Int :=
  match index with
  | some line_index =>
    if line_index.isEmpty then
      if threshold < bs.length then -1
      else scan_line_small (splitLines bs) 0 0 target_offset
    else
      let offsets := line_index.map Prod.snd
      let idx := bisect_right offsets target_offset - 1
      let p := line_index.getD idx (1, 0)
      if p.2 = target_offset then (p.1 : Int)
      else scan_line_from_index (splitLines (bs.drop p.2)) p.1 p.2 target_offset
  | none =>
    if threshold < bs.length then -1
    else scan_line_small (splitLines bs) 0 0 target_offset

/-- A cached line index is valid for `bs` when it starts with `(1, 0)`,
its line numbers are strictly increasing, and every checkpoint `(L, O)`
records the true start offset of line `L` (allowing the end-of-file
checkpoint `L = numLines + 1` that `build_index` can emit). -/
def ValidIndex (bs : List Nat) (idx : List (Nat × Nat)) : Prop :=
  idx.head? = some (1, 0) ∧
  idx.Pairwise (fun a b => a.1 < b.1) ∧
  ∀ e ∈ idx, 1 ≤ e.1 ∧ e.1 ≤ numLines bs + 1 ∧ e.2 = offsetOfLine bs e.1

instance (bs : List Nat) (idx : List (Nat × Nat)) : Decidable (ValidIndex bs idx) := by
  unfold ValidIndex
  infer_instance

/-! ### Structure of `splitLines` output -/

/-- Shape of a produced line: non-empty, and no interior newline byte. -/
def LineShape (l : List Nat) : Prop := l ≠ [] ∧ ∀ b ∈ l.dropLast, b ≠ 10

theorem splitLinesAux_shape (bs : List Nat) :
    ∀ acc, (∀ b ∈ acc, b ≠ 10) → ∀ l ∈ splitLinesAux bs acc, LineShape l := by
  induction bs with
  | nil =>
    intro acc hacc l hl
    by_cases h : acc.isEmpty
    · simp [splitLinesAux, h] at hl
    · simp [splitLinesAux, h] at hl
      subst hl
      constructor
      · intro hrev
        exact h (by simp [List.isEmpty_iff, List.reverse_eq_nil_iff.mp hrev])
      · intro b hb
        have hb' := List.mem_of_mem_dropLast hb
        exact hacc b (by simpa using hb')
  | cons b rest ih =>
    intro acc hacc l hl
    by_cases h : b = 10
    · simp only [splitLinesAux, if_pos h] at hl
      rcases List.mem_cons.mp hl with hl | hl
      · subst hl
        refine ⟨by simp, ?_⟩
        intro x hx
        rw [List.dropLast_concat] at hx
        exact hacc x (by simpa using hx)
      · exact ih [] (by simp) l hl
    · simp only [splitLinesAux, if_neg h] at hl
      refine ih (b :: acc) ?_ l hl
      intro x hx
      rcases List.mem_cons.mp hx with hx | hx
      · subst hx; exact h
      · exact hacc x hx

theorem splitLines_shape {bs l : List Nat} (hl : l ∈ splitLines bs) : LineShape l :=
  splitLinesAux_shape bs [] (by simp) l hl

theorem splitLinesAux_no_nl (bs : List Nat) (hno : ∀ b ∈ bs, b ≠ 10) :
    ∀ acc, splitLinesAux bs acc = if (acc.reverse ++ bs).isEmpty then [] else [acc.reverse ++ bs] := by
  induction bs with
  | nil => intro acc; simp [splitLinesAux]
  | cons b rest ih =>
    intro acc
    have hb : b ≠ 10 := hno b (by simp)
    have hrest : ∀ x ∈ rest, x ≠ 10 := fun x hx => hno x (List.mem_cons_of_mem b hx)
    simp only [splitLinesAux, if_neg hb]
    rw [ih hrest (b :: acc)]
    simp

theorem splitLinesAux_nl_boundary (m : List Nat) (hno : ∀ b ∈ m, b ≠ 10) (tail : List Nat) :
    ∀ acc, splitLinesAux (m ++ 10 :: tail) acc =
      (acc.reverse ++ m ++ [10]) :: splitLinesAux tail [] := by
  induction m with
  | nil => intro acc; simp [splitLinesAux]
  | cons b ms ih =>
    intro acc
    have hb : b ≠ 10 := hno b (by simp)
    have hms : ∀ x ∈ ms, x ≠ 10 := fun x hx => hno x (List.mem_cons_of_mem b hx)
    simp only [List.cons_append, splitLinesAux, if_neg hb]
    rw [show List.append ms (10 :: tail) = ms ++ 10 :: tail from rfl, ih hms (b :: acc)]
    simp

/-- A single well-shaped line splits into itself. -/
theorem splitLines_single {l : List Nat} (h : LineShape l) : splitLines l = [l] := by
  rcases h with ⟨hne, hint⟩
  rcases List.eq_nil_or_concat l with rfl | ⟨ys, y, rfl⟩
  · exact absurd rfl hne
  · by_cases hy : y = 10
    · subst hy
      have hys : ∀ b ∈ ys, b ≠ 10 := by
        intro b hb
        exact hint b (by rw [List.concat_eq_append, List.dropLast_concat]; exact hb)
      have := splitLinesAux_nl_boundary ys hys [] []
      simp only [List.concat_eq_append]
      rw [splitLines]
      simpa [splitLinesAux] using this
    · have hall : ∀ b ∈ ys ++ [y], b ≠ 10 := by
        intro b hb
        rcases List.mem_append.mp hb with hb | hb
        · exact hint b (by rw [List.concat_eq_append, List.dropLast_concat]; exact hb)
        · simp at hb; subst hb; exact hy
      rw [splitLines, splitLinesAux_no_nl _ (by simpa using hall) []]
      simp

/-- A well-shaped newline-terminated line splits off the front. -/
theorem splitLines_cons_of_nl {l : List Nat} (h : LineShape l) (hnl : l.getLast? = some 10)
    (tail : List Nat) : splitLines (l ++ tail) = l :: splitLines tail := by
  rcases h with ⟨hne, hint⟩
  rcases List.eq_nil_or_concat l with rfl | ⟨ys, y, rfl⟩
  · exact absurd rfl hne
  · have hy : y = 10 := by simpa using hnl
    subst hy
    have hys : ∀ b ∈ ys, b ≠ 10 := by
      intro b hb
      exact hint b (by rw [List.concat_eq_append, List.dropLast_concat]; exact hb)
    have := splitLinesAux_nl_boundary ys hys tail []
    simp only [List.concat_eq_append, List.append_assoc, List.singleton_append]
    rw [splitLines]
    simpa using this

/-- Splitting the concatenation of a well-shaped line list recovers it. -/
theorem splitLines_flatten_of_shape :
    ∀ ls : List (List Nat), (∀ l ∈ ls, LineShape l) →
      (∀ l ∈ ls.dropLast, l.getLast? = some 10) → splitLines ls.flatten = ls := by
  intro ls
  induction ls with
  | nil => intro _ _; rfl
  | cons l rest ih =>
    intro hshape hnl
    cases rest with
    | nil =>
      simpa using splitLines_single (hshape l (by simp))
    | cons m ms =>
      have hl10 : l.getLast? = some 10 := hnl l (by simp [List.dropLast_cons_of_ne_nil])
      rw [List.flatten_cons, splitLines_cons_of_nl (hshape l (by simp)) hl10]
      congr 1
      apply ih
      · intro x hx; exact hshape x (List.mem_cons_of_mem l hx)
      · intro x hx
        apply hnl
        rw [List.dropLast_cons_of_ne_nil (by simp)]
        exact List.mem_cons_of_mem l hx

/-! ### Prefix-sum facts about line lengths -/

theorem sumLen_zero (ls : List (List Nat)) : sumLen ls 0 = 0 := by simp [sumLen]

theorem sumLen_succ (l : List Nat) (ls : List (List Nat)) (j : Nat) :
    sumLen (l :: ls) (j + 1) = l.length + sumLen ls j := by
  simp [sumLen, List.take_cons]

theorem sumLen_add (ls : List (List Nat)) (a c : Nat) :
    sumLen ls (a + c) = sumLen ls a + sumLen (ls.drop a) c := by
  simp [sumLen, List.take_add, List.sum_append]

theorem sumLen_mono (ls : List (List Nat)) {a b : Nat} (h : a ≤ b) :
    sumLen ls a ≤ sumLen ls b := by
  rcases Nat.exists_eq_add_of_le h with ⟨c, rfl⟩
  rw [sumLen_add]
  omega

theorem sumLen_all (ls : List (List Nat)) : sumLen ls ls.length = (ls.map List.length).sum := by
  simp [sumLen]

theorem sumLen_flatten (ls : List (List Nat)) : sumLen ls ls.length = ls.flatten.length := by
  rw [sumLen_all, List.length_flatten]

theorem sumLen_strict_mono (ls : List (List Nat)) (hne : ∀ l ∈ ls, l ≠ []) {a b : Nat}
    (h : a < b) (hb : b ≤ ls.length) : sumLen ls a < sumLen ls b := by
  have h1 : a + 1 ≤ b := h
  have h2 : sumLen ls (a + 1) ≤ sumLen ls b := sumLen_mono ls h1
  have h3 : sumLen ls a < sumLen ls (a + 1) := by
    rw [sumLen_add ls a 1]
    have hlt : a < ls.length := by omega
    rcases List.exists_cons_of_ne_nil (by
      intro hd
      have := congrArg List.length hd
      simp at this
      omega : ls.drop a ≠ []) with ⟨l, tl, hdrop⟩
    have hmem : l ∈ ls := by
      have : l ∈ ls.drop a := by rw [hdrop]; simp
      exact List.mem_of_mem_drop this
    have : 1 ≤ l.length := List.length_pos.mpr (hne l hmem)
    rw [hdrop, sumLen_succ]
    simp [sumLen]
    omega
  omega

theorem sumLen_le_flatten (ls : List (List Nat)) (k : Nat) :
    sumLen ls k ≤ ls.flatten.length := by
  by_cases h : k ≤ ls.length
  · rw [← sumLen_flatten]; exact sumLen_mono ls h
  · have : ls.take k = ls.take ls.length := by
      rw [List.take_of_length_le (by omega), List.take_length]
    rw [sumLen, this, ← sumLen, sumLen_flatten]

/-- Dropping the bytes of the first `k` lines and re-splitting gives the
remaining lines. -/
theorem drop_sumLen_splitLines (bs : List Nat) (k : Nat) :
    splitLines (bs.drop (sumLen (splitLines bs) k)) = (splitLines bs).drop k := by
  set ls := splitLines bs with hls
  have hsplit : bs = (ls.take k).flatten ++ (ls.drop k).flatten := by
    conv_lhs => rw [← splitLines_flatten bs]
    rw [← hls, ← List.flatten_append, List.take_append_drop]
  have hlen : (ls.take k).flatten.length = sumLen ls k := by
    simp [sumLen, List.length_flatten]
  have hdrop : List.drop (sumLen ls k) ((ls.take k).flatten ++ (ls.drop k).flatten)
      = (ls.drop k).flatten := by
    rw [← hlen, List.drop_left]
  conv_lhs => rw [hsplit, hdrop]
  apply splitLines_flatten_of_shape
  · intro l hl
    exact splitLines_shape (hls ▸ List.mem_of_mem_drop hl)
  · intro l hl
    have hcomm : (ls.drop k).dropLast = ls.dropLast.drop k := by
      rw [List.dropLast_eq_take, List.dropLast_eq_take, List.length_drop, List.take_drop,
        List.drop_take, List.drop_take]
      congr 1
      omega
    rw [hcomm] at hl
    have hmem : l ∈ (splitLines bs).dropLast := List.mem_of_mem_drop hl
    exact splitLines_dropLast_getLast hmem

/-! ### Binary-search characterization -/

/-- For a checkpoint list whose key `f` is strictly increasing and whose
first key is `≤ t`, `bisect_right` followed by the `- 1` clamp selects the
rightmost entry with key `≤ t`. -/
theorem bisect_getD_spec (f : Nat × Nat → Nat) :
    ∀ (idx : List (Nat × Nat)) (t : Nat),
      idx.Pairwise (fun a b => f a < f b) →
      (∀ a, idx.head? = some a → f a ≤ t) →
      idx ≠ [] →
      (idx.getD (bisect_right (idx.map f) t - 1) (1, 0)) ∈ idx ∧
      f (idx.getD (bisect_right (idx.map f) t - 1) (1, 0)) ≤ t ∧
      ∀ e ∈ idx, f e ≤ t → f e ≤ f (idx.getD (bisect_right (idx.map f) t - 1) (1, 0)) := by
  intro idx
  induction idx with
  | nil => intro t _ _ hne; exact absurd rfl hne
  | cons a rest ih =>
    intro t hpw hhead _
    have ha : f a ≤ t := hhead a rfl
    have hnlt : ¬ t < f a := by omega
    cases rest with
    | nil =>
      simp [bisect_right, hnlt]
      omega
    | cons b rs =>
      have hpw' : (b :: rs).Pairwise (fun x y => f x < f y) := hpw.of_cons
      have hab : ∀ e ∈ b :: rs, f a < f e := fun e he => (List.pairwise_cons.mp hpw).1 e he
      by_cases hb : t < f b
      · have hidx : bisect_right ((a :: b :: rs).map f) t - 1 = 0 := by
          simp [bisect_right, hnlt, hb]
        rw [hidx]
        refine ⟨by simp, by simpa using ha, ?_⟩
        intro e he het
        rcases List.mem_cons.mp he with rfl | he'
        · simp
        · rcases List.mem_cons.mp he' with rfl | he''
          · omega
          · have := (List.pairwise_cons.mp hpw').1 e he''
            omega
      · have hbt : f b ≤ t := by omega
        have hpos : 1 ≤ bisect_right ((b :: rs).map f) t := by
          simp only [List.map_cons, bisect_right, if_neg (show ¬ t < f b by omega)]
          omega
        have hstep : bisect_right ((a :: b :: rs).map f) t
            = bisect_right ((b :: rs).map f) t + 1 := by
          simp [bisect_right, hnlt]
        have hgetD : (a :: b :: rs).getD (bisect_right ((a :: b :: rs).map f) t - 1) (1, 0)
            = (b :: rs).getD (bisect_right ((b :: rs).map f) t - 1) (1, 0) := by
          rw [hstep, Nat.add_sub_cancel]
          rcases Nat.exists_eq_add_of_le hpos with ⟨m, hm⟩
          rw [hm, show 1 + m = m + 1 by omega, List.getD_cons_succ]
          simp
        rw [hgetD]
        obtain ⟨h1, h2, h3⟩ := ih t hpw' (by intro x hx; simp at hx; subst hx; exact hbt) (by simp)
        refine ⟨List.mem_cons_of_mem a h1, h2, ?_⟩
        intro e he het
        rcases List.mem_cons.mp he with rfl | he'
        · have := hab _ h1; omega
        · exact h3 e he' het

/-! ### Scan lemmas -/

theorem scan_offset_small_eq :
    ∀ (ls : List (List Nat)) (cl co t : Nat),
      scan_offset_small ls cl co t = scan_offset_from_index ls (cl + 1) co t := by
  intro ls
  induction ls with
  | nil => intro cl co t; rfl
  | cons l rest ih =>
    intro cl co t
    simp only [scan_offset_small, scan_offset_from_index]
    by_cases h : cl + 1 = t
    · simp [h]
    · simp [h, ih]

theorem scan_line_small_eq :
    ∀ (ls : List (List Nat)) (cl co t : Nat),
      scan_line_small ls cl co t = scan_line_from_index ls (cl + 1) co t := by
  intro ls
  induction ls with
  | nil => intro cl co t; rfl
  | cons l rest ih =>
    intro cl co t
    simp only [scan_line_small, scan_line_from_index]
    by_cases h1 : co = t
    · simp [h1]
    · by_cases h2 : t < co + l.length
      · simp [h1, h2]
      · simp [h1, h2, ih]

/-- A forward scan that starts on line `c` at offset `co` and looks for a
line `t` within the remaining lines returns `co` plus the lengths of the
skipped lines. -/
theorem scan_offset_hit :
    ∀ (ls : List (List Nat)) (c co t : Nat), c ≤ t → t - c < ls.length →
      scan_offset_from_index ls c co t = (co + sumLen ls (t - c) : Int) := by
  intro ls
  induction ls with
  | nil => intro c co t _ h; simp at h
  | cons l rest ih =>
    intro c co t hct h
    simp only [scan_offset_from_index]
    by_cases hc : c = t
    · simp [hc, sumLen_zero]
    · have hlt : c < t := by omega
      rw [if_neg hc, ih (c + 1) (co + l.length) t (by omega) (by simp at h ⊢; omega)]
      have harith : t - c = (t - (c + 1)) + 1 := by omega
      rw [harith, sumLen_succ]
      push_cast
      ring_nf

/-- A forward scan for a line beyond the remaining lines returns `-1`. -/
theorem scan_offset_none :
    ∀ (ls : List (List Nat)) (c co t : Nat), c + ls.length ≤ t →
      scan_offset_from_index ls c co t = -1 := by
  intro ls
  induction ls with
  | nil => intro c co t _; rfl
  | cons l rest ih =>
    intro c co t h
    simp only [scan_offset_from_index]
    simp only [List.length_cons] at h
    rw [if_neg (by omega), ih (c + 1) (co + l.length) t (by omega)]

/-- A forward scan that starts on line `c` at offset `co` and looks for the
offset at which line `c + j` starts returns `c + j`. -/
theorem scan_line_hit :
    ∀ (ls : List (List Nat)) (c co t j : Nat), (∀ l ∈ ls, l ≠ []) →
      j < ls.length → t = co + sumLen ls j →
      scan_line_from_index ls c co t = (c + j : Int) := by
  intro ls
  induction ls with
  | nil => intro c co t j _ h _; simp at h
  | cons l rest ih =>
    intro c co t j hne hj ht
    simp only [scan_line_from_index]
    cases j with
    | zero =>
      rw [sumLen_zero] at ht
      simp [ht]
    | succ j' =>
      rw [sumLen_succ] at ht
      have hl1 : 1 ≤ l.length := List.length_pos.mpr (hne l (by simp))
      have hco : ¬ co = t := by omega
      have hco2 : ¬ t < co + l.length := by omega
      rw [if_neg hco, if_neg hco2,
        ih (c + 1) (co + l.length) t j' (fun x hx => hne x (List.mem_cons_of_mem l hx))
          (by simp at hj ⊢; omega) (by omega)]
      push_cast
      ring_nf

/-- A forward scan for an offset at or beyond the end of the remaining
bytes returns `-1`. -/
theorem scan_line_none :
    ∀ (ls : List (List Nat)) (c co t : Nat), (∀ l ∈ ls, l ≠ []) →
      co + (ls.map List.length).sum ≤ t → (ls = [] ∨ co < t) →
      scan_line_from_index ls c co t = -1 := by
  intro ls
  induction ls with
  | nil => intro c co t _ _ _; rfl
  | cons l rest ih =>
    intro c co t hne hsum hlt
    have hcolt : co < t := by
      rcases hlt with h | h
      · exact absurd h (by simp)
      · exact h
    simp only [scan_line_from_index]
    simp only [List.map_cons, List.sum_cons] at hsum
    rw [if_neg (by omega), if_neg (by omega),
      ih (c + 1) (co + l.length) t (fun x hx => hne x (List.mem_cons_of_mem l hx)) (by omega) ?_]
    cases rest with
    | nil => exact Or.inl rfl
    | cons m ms =>
      right
      have hm1 : 1 ≤ m.length := List.length_pos.mpr (hne m (by simp))
      simp only [List.map_cons, List.sum_cons] at hsum
      omega

/-! ### Query correctness under a valid index -/

theorem offsetOfLine_strict (bs : List Nat) {a b : Nat} (h1 : 1 ≤ a) (hab : a < b)
    (hb : b ≤ numLines bs + 1) : offsetOfLine bs a < offsetOfLine bs b := by
  apply sumLen_strict_mono
  · intro l hl; exact splitLines_ne_nil hl
  · omega
  · have : (splitLines bs).length = numLines bs := rfl
    omega

theorem ValidIndex.ne_nil {bs : List Nat} {idx : List (Nat × Nat)} (hv : ValidIndex bs idx) :
    idx ≠ [] := by
  intro h
  rw [h] at hv
  exact absurd hv.1 (by simp)

theorem ValidIndex.snd_pairwise {bs : List Nat} {idx : List (Nat × Nat)}
    (hv : ValidIndex bs idx) : idx.Pairwise (fun a b => a.2 < b.2) := by
  refine hv.2.1.imp_of_mem ?_
  intro a b hma hmb hab
  obtain ⟨ha1, ha2, ha3⟩ := hv.2.2 a hma
  obtain ⟨hb1, hb2, hb3⟩ := hv.2.2 b hmb
  rw [ha3, hb3]
  exact offsetOfLine_strict bs ha1 hab hb2

/-- With a valid index, `calculate_exact_offset_for_line` returns the true
start offset of every in-range line. -/
theorem offset_query_correct (bs : List Nat) (idx : List (Nat × Nat)) (threshold L : Nat)
    (hv : ValidIndex bs idx) (h1 : 1 ≤ L) (h2 : L ≤ numLines bs) :
    calculate_exact_offset_for_line bs (some idx) threshold L = (offsetOfLine bs L : Int) := by
  have hne := hv.ne_nil
  obtain ⟨hmem, hle, hmax⟩ := bisect_getD_spec Prod.fst idx L hv.2.1
    (by
      intro a haa
      have : a = (1, 0) := by rw [hv.1] at haa; exact (Option.some.injEq _ _ ▸ haa).symm
      subst this
      simpa using h1) hne
  set p := idx.getD (bisect_right (idx.map Prod.fst) L - 1) (1, 0) with hp
  obtain ⟨hp1, hp2, hp3⟩ := hv.2.2 p hmem
  simp only [calculate_exact_offset_for_line, List.isEmpty_iff, if_neg hne]
  rw [show find_line_offset idx L = p from by
    simp [find_line_offset, List.isEmpty_iff, hne, hp]]
  by_cases hexact : p.1 = L
  · rw [if_pos hexact, hp3, hexact]
  · rw [if_neg hexact]
    have hplt : p.1 < L := by omega
    have hkle : p.1 - 1 ≤ numLines bs := by omega
    rw [hp3]
    rw [show offsetOfLine bs p.1 = sumLen (splitLines bs) (p.1 - 1) from rfl,
      drop_sumLen_splitLines bs (p.1 - 1)]
    rw [scan_offset_hit _ p.1 _ L (by omega)
      (by
        rw [List.length_drop]
        have : (splitLines bs).length = numLines bs := rfl
        omega)]
    have : sumLen (splitLines bs) (p.1 - 1) + sumLen ((splitLines bs).drop (p.1 - 1)) (L - p.1)
        = offsetOfLine bs L := by
      rw [← sumLen_add]
      have : p.1 - 1 + (L - p.1) = L - 1 := by omega
      rw [this]
      rfl
    push_cast [← this]
    ring_nf

/-- With a valid index, `calculate_exact_line_for_offset` maps the start
offset of every in-range line back to its line number. -/
theorem line_query_correct (bs : List Nat) (idx : List (Nat × Nat)) (threshold L : Nat)
    (hv : ValidIndex bs idx) (h1 : 1 ≤ L) (h2 : L ≤ numLines bs) :
    calculate_exact_line_for_offset bs (some idx) threshold (offsetOfLine bs L) = (L : Int) := by
  have hne := hv.ne_nil
  set t := offsetOfLine bs L with htdef
  obtain ⟨hmem, hle, hmax⟩ := bisect_getD_spec Prod.snd idx t hv.snd_pairwise
    (by
      intro a haa
      have : a = (1, 0) := by rw [hv.1] at haa; exact (Option.some.injEq _ _ ▸ haa).symm
      subst this
      simp) hne
  set p := idx.getD (bisect_right (idx.map Prod.snd) t - 1) (1, 0) with hp
  obtain ⟨hp1, hp2, hp3⟩ := hv.2.2 p hmem
  simp only [calculate_exact_line_for_offset, List.isEmpty_iff, if_neg hne]
  rw [← hp]
  by_cases hexact : p.2 = t
  · rw [if_pos hexact]
    have hPL : p.1 = L := by
      by_contra hneq
      rcases Nat.lt_or_ge p.1 L with hlt | hge
      · have := offsetOfLine_strict bs hp1 hlt (by omega)
        rw [← hp3, ← htdef] at this
        omega
      · have hgt : L < p.1 := by omega
        have := offsetOfLine_strict bs h1 hgt hp2
        rw [← hp3, ← htdef] at this
        omega
    rw [hPL]
  · rw [if_neg hexact]
    have hplt : p.2 < t := by omega
    have hil : p.1 < L := by
      by_contra hge
      have hge' : L ≤ p.1 := by omega
      have : offsetOfLine bs L ≤ offsetOfLine bs p.1 := sumLen_mono _ (by omega)
      rw [← hp3] at this
      omega
    rw [hp3]
    rw [show offsetOfLine bs p.1 = sumLen (splitLines bs) (p.1 - 1) from rfl,
      drop_sumLen_splitLines bs (p.1 - 1)]
    rw [scan_line_hit _ p.1 _ t (L - p.1)
      (fun x hx => splitLines_ne_nil (List.mem_of_mem_drop hx))
      (by
        rw [List.length_drop]
        have : (splitLines bs).length = numLines bs := rfl
        omega)
      (by
        rw [← sumLen_add]
        have harith : p.1 - 1 + (L - p.1) = L - 1 := by omega
        rw [harith]
        rfl)]
    have : p.1 + (L - p.1) = L := by omega
    omega

/-- Without an index, a small enough file is scanned from the start;
the result is again the true start offset. -/
theorem offset_query_small (bs : List Nat) (threshold L : Nat)
    (hthr : bs.length ≤ threshold) (h1 : 1 ≤ L) (h2 : L ≤ numLines bs) :
    calculate_exact_offset_for_line bs none threshold L = (offsetOfLine bs L : Int) := by
  simp only [calculate_exact_offset_for_line, if_neg (show ¬ threshold < bs.length by omega)]
  rw [scan_offset_small_eq, scan_offset_hit _ 1 0 L h1
    (by
      have : (splitLines bs).length = numLines bs := rfl
      omega)]
  simp [offsetOfLine]

theorem line_query_small (bs : List Nat) (threshold L : Nat)
    (hthr : bs.length ≤ threshold) (h1 : 1 ≤ L) (h2 : L ≤ numLines bs) :
    calculate_exact_line_for_offset bs none threshold (offsetOfLine bs L) = (L : Int) := by
  simp only [calculate_exact_line_for_offset, if_neg (show ¬ threshold < bs.length by omega)]
  rw [scan_line_small_eq, scan_line_hit _ 1 0 (offsetOfLine bs L) (L - 1)
    (fun x hx => splitLines_ne_nil hx)
    (by
      have : (splitLines bs).length = numLines bs := rfl
      omega)
    (by simp [offsetOfLine])]
  omega

/-- Precondition of the round-trip law: either a valid cached line index
is supplied, or no index exists and the file is within the large-file
threshold (so the whole-file scan path applies). -/
def ValidIndexOpt (bs : List Nat) (index : Option (List (Nat × Nat))) (threshold : Nat) : Prop :=
  match index with
  | some idx => ValidIndex bs idx
  | none => bs.length ≤ threshold

instance (bs : List Nat) (index : Option (List (Nat × Nat))) (threshold : Nat) :
    Decidable (ValidIndexOpt bs index threshold) := by
  unfold ValidIndexOpt
  cases index <;> infer_instance

/-- C7: the line/offset round trip.  For every file with a valid line
index (or small enough to scan without one) and every in-range line
number `L`, looking up the byte offset of line `L` and then looking up
the line number at that offset returns `L`. -/
theorem c7_offset_line_roundtrip (bs : List Nat) (index : Option (List (Nat × Nat)))
    (threshold L : Nat) (hv : ValidIndexOpt bs index threshold)
    (h1 : 1 ≤ L) (h2 : L ≤ numLines bs) :
    calculate_exact_line_for_offset bs index threshold
      (calculate_exact_offset_for_line bs index threshold L).toNat = (L : Int) := by
  cases index with
  | some idx =>
    rw [offset_query_correct bs idx threshold L hv h1 h2]
    rw [Int.toNat_natCast]
    exact line_query_correct bs idx threshold L hv h1 h2
  | none =>
    rw [offset_query_small bs threshold L hv h1 h2]
    rw [Int.toNat_natCast]
    exact line_query_small bs threshold L hv h1 h2

/-- Witness for C7: the file `b"a\nbb\nccc\n"` with the valid index
`[(1,0),(2,2)]` round-trips line 3 through offset 5. -/
theorem c7_witness :
    ValidIndexOpt [97, 10, 98, 98, 10, 99, 99, 99, 10] (some [(1, 0), (2, 2)]) 50 ∧
      1 ≤ 3 ∧ 3 ≤ numLines [97, 10, 98, 98, 10, 99, 99, 99, 10] ∧
      calculate_exact_line_for_offset [97, 10, 98, 98, 10, 99, 99, 99, 10]
        (some [(1, 0), (2, 2)]) 50
        (calculate_exact_offset_for_line [97, 10, 98, 98, 10, 99, 99, 99, 10]
          (some [(1, 0), (2, 2)]) 50 3).toNat = (3 : Int) :=
  ⟨by decide, by decide, by decide,
    c7_offset_line_roundtrip [97, 10, 98, 98, 10, 99, 99, 99, 10] (some [(1, 0), (2, 2)]) 50 3
      (by decide) (by decide) (by decide)⟩

theorem offsetOfLine_inj (bs : List Nat) {a b : Nat} (ha1 : 1 ≤ a) (ha2 : a ≤ numLines bs + 1)
    (hb1 : 1 ≤ b) (hb2 : b ≤ numLines bs + 1) (h : offsetOfLine bs a = offsetOfLine bs b) :
    a = b := by
  rcases Nat.lt_trichotomy a b with hlt | heq | hgt
  · have := offsetOfLine_strict bs ha1 hlt hb2
    omega
  · exact heq
  · have := offsetOfLine_strict bs hb1 hgt ha2
    omega

theorem sum_lineLengths (bs : List Nat) : ((splitLines bs).map List.length).sum = bs.length := by
  have h := congrArg List.length (splitLines_flatten bs)
  rw [List.length_flatten] at h
  exact h

/-- C10 (amended): the query operations are total with a `-1` sentinel.
Whenever the target line or offset lies at or beyond end-of-file the
result is `-1` — except that a target matching an index checkpoint
exactly (possible at end-of-file via the checkpoint `build_index` can
place there) returns that checkpoint's companion value — and whenever the
file exceeds the large-file threshold with no index available the result
is `-1` as well. -/
theorem c10_sentinel_behavior (bs : List Nat) (threshold : Nat) :
    (∀ t, threshold < bs.length →
      calculate_exact_offset_for_line bs none threshold t = -1 ∧
      calculate_exact_line_for_offset bs none threshold t = -1) ∧
    (∀ L, bs.length ≤ threshold → numLines bs < L →
      calculate_exact_offset_for_line bs none threshold L = -1) ∧
    (∀ O, bs.length ≤ threshold → bs.length ≤ O →
      calculate_exact_line_for_offset bs none threshold O = -1) ∧
    (∀ idx L, ValidIndex bs idx → numLines bs < L → (∀ e ∈ idx, e.1 ≠ L) →
      calculate_exact_offset_for_line bs (some idx) threshold L = -1) ∧
    (∀ idx O, ValidIndex bs idx → bs.length ≤ O → (∀ e ∈ idx, e.2 ≠ O) →
      calculate_exact_line_for_offset bs (some idx) threshold O = -1) ∧
    (∀ idx L e, ValidIndex bs idx → e ∈ idx → e.1 = L →
      calculate_exact_offset_for_line bs (some idx) threshold L = (e.2 : Int)) ∧
    (∀ idx O e, ValidIndex bs idx → e ∈ idx → e.2 = O →
      calculate_exact_line_for_offset bs (some idx) threshold O = (e.1 : Int)) := by
  have hlen_ls : (splitLines bs).length = numLines bs := rfl
  refine ⟨?_, ?_, ?_, ?_, ?_, ?_, ?_⟩
  · intro t ht
    constructor
    · simp [calculate_exact_offset_for_line, ht]
    · simp [calculate_exact_line_for_offset, ht]
  · intro L hthr hL
    simp only [calculate_exact_offset_for_line, if_neg (show ¬ threshold < bs.length by omega)]
    rw [scan_offset_small_eq]
    exact scan_offset_none _ 1 0 L (by omega)
  · intro O hthr hO
    simp only [calculate_exact_line_for_offset, if_neg (show ¬ threshold < bs.length by omega)]
    rw [scan_line_small_eq]
    apply scan_line_none _ 1 0 O (fun x hx => splitLines_ne_nil hx)
      (by rw [sum_lineLengths]; omega)
    rcases Nat.eq_zero_or_pos bs.length with hz | hpos
    · left
      have : bs = [] := List.length_eq_zero.mp hz
      rw [this]
      rfl
    · right; omega
  · intro idx L hv hL hno
    have hne := hv.ne_nil
    obtain ⟨hmem, hle, hmax⟩ := bisect_getD_spec Prod.fst idx L hv.2.1
      (by
        intro a haa
        have : a = (1, 0) := by rw [hv.1] at haa; exact (Option.some.injEq _ _ ▸ haa).symm
        subst this
        simp only
        omega) hne
    set p := idx.getD (bisect_right (idx.map Prod.fst) L - 1) (1, 0) with hp
    obtain ⟨hp1, hp2, hp3⟩ := hv.2.2 p hmem
    simp only [calculate_exact_offset_for_line, List.isEmpty_iff, if_neg hne]
    rw [show find_line_offset idx L = p from by
      simp [find_line_offset, List.isEmpty_iff, hne, hp]]
    rw [if_neg (hno p hmem)]
    rw [hp3, show offsetOfLine bs p.1 = sumLen (splitLines bs) (p.1 - 1) from rfl,
      drop_sumLen_splitLines bs (p.1 - 1)]
    exact scan_offset_none _ p.1 _ L (by rw [List.length_drop]; omega)
  · intro idx O hv hO hno
    have hne := hv.ne_nil
    obtain ⟨hmem, hle, hmax⟩ := bisect_getD_spec Prod.snd idx O hv.snd_pairwise
      (by
        intro a haa
        have : a = (1, 0) := by rw [hv.1] at haa; exact (Option.some.injEq _ _ ▸ haa).symm
        subst this
        simp) hne
    set p := idx.getD (bisect_right (idx.map Prod.snd) O - 1) (1, 0) with hp
    obtain ⟨hp1, hp2, hp3⟩ := hv.2.2 p hmem
    simp only [calculate_exact_line_for_offset, List.isEmpty_iff, if_neg hne]
    rw [← hp]
    rw [if_neg (hno p hmem)]
    have hplt : p.2 < O := by
      have := hno p hmem
      omega
    rw [hp3, show offsetOfLine bs p.1 = sumLen (splitLines bs) (p.1 - 1) from rfl,
      drop_sumLen_splitLines bs (p.1 - 1)]
    apply scan_line_none _ p.1 _ O (fun x hx => splitLines_ne_nil (List.mem_of_mem_drop hx))
    · have hdecomp : sumLen (splitLines bs) (p.1 - 1)
          + (((splitLines bs).drop (p.1 - 1)).map List.length).sum = bs.length := by
        rw [← sumLen_all, ← sumLen_add, ← sum_lineLengths bs, ← sumLen_all]
        congr 1
        rw [List.length_drop]
        omega
      omega
    · right
      have heq : sumLen (splitLines bs) (p.1 - 1) = p.2 := by rw [hp3]; rfl
      omega
  · intro idx L e hv hmeme heL
    have hne := hv.ne_nil
    obtain ⟨he1, he2, he3⟩ := hv.2.2 e hmeme
    have hL1 : 1 ≤ L := by omega
    obtain ⟨hmem, hle, hmax⟩ := bisect_getD_spec Prod.fst idx L hv.2.1
      (by
        intro a haa
        have : a = (1, 0) := by rw [hv.1] at haa; exact (Option.some.injEq _ _ ▸ haa).symm
        subst this
        simp only
        omega) hne
    set p := idx.getD (bisect_right (idx.map Prod.fst) L - 1) (1, 0) with hp
    obtain ⟨hp1, hp2, hp3⟩ := hv.2.2 p hmem
    have hpL : p.1 = L := by
      have h1 := hmax e hmeme (by omega)
      omega
    simp only [calculate_exact_offset_for_line, List.isEmpty_iff, if_neg hne]
    rw [show find_line_offset idx L = p from by
      simp [find_line_offset, List.isEmpty_iff, hne, hp]]
    rw [if_pos hpL, hp3, hpL, ← heL, ← he3]
  · intro idx O e hv hmeme heO
    have hne := hv.ne_nil
    obtain ⟨he1, he2, he3⟩ := hv.2.2 e hmeme
    obtain ⟨hmem, hle, hmax⟩ := bisect_getD_spec Prod.snd idx O hv.snd_pairwise
      (by
        intro a haa
        have : a = (1, 0) := by rw [hv.1] at haa; exact (Option.some.injEq _ _ ▸ haa).symm
        subst this
        simp only
        omega) hne
    set p := idx.getD (bisect_right (idx.map Prod.snd) O - 1) (1, 0) with hp
    obtain ⟨hp1, hp2, hp3⟩ := hv.2.2 p hmem
    have hpO : p.2 = O := by
      have h1 := hmax e hmeme (by omega)
      omega
    simp only [calculate_exact_line_for_offset, List.isEmpty_iff, if_neg hne]
    rw [← hp]
    rw [if_pos hpO]
    have : p.1 = e.1 := by
      apply offsetOfLine_inj bs hp1 hp2 he1 he2
      rw [← hp3, ← he3]
      omega
    rw [this]

/-- C10 (claim as frozen, refuted): for the one-line file `b"ab\n"`,
`build_index` with step 1 produces the end-of-file checkpoint `(2, 3)`;
querying the offset of line 2 — which is beyond end-of-file — returns 3
rather than `-1`. -/
theorem c10_counterexample :
    build_index_line_index [97, 98, 10] 1 = [(1, 0), (2, 3)] ∧
      numLines [97, 98, 10] = 1 ∧
      ValidIndex [97, 98, 10] [(1, 0), (2, 3)] ∧
      calculate_exact_offset_for_line [97, 98, 10] (some [(1, 0), (2, 3)]) 50 2 = 3 := by
  decide

/-- Witness for C10 at concrete inputs. -/
theorem c10_witness :
    (0 < ([97, 10] : List Nat).length ∧
      calculate_exact_offset_for_line [97, 10] none 0 5 = -1) ∧
    (ValidIndex [97, 10] [(1, 0)] ∧ numLines [97, 10] < 2 ∧
      calculate_exact_offset_for_line [97, 10] (some [(1, 0)]) 7 2 = -1) :=
  ⟨⟨by decide, ((c10_sentinel_behavior [97, 10] 0).1 5 (by decide)).1⟩,
    ⟨by decide, by decide,
      (c10_sentinel_behavior [97, 10] 7).2.2.2.1 [(1, 0)] 2 (by decide) (by decide)
        (by decide)⟩⟩

/-! ## Path sandbox (path_security.py)

A POSIX path is embedded as a flag for absoluteness plus its component
list.  Symlink and `..` resolution (`Path.resolve`) depends on the file
system; it is passed in as a function `resolvefn` producing the resolved
absolute component list, so the theorems hold for every file-system
behavior.  `Path.relative_to` on two absolute paths succeeds exactly when
the root's components are a prefix of the candidate's. -/

structure PyPath where
  absolute : Bool
  parts : List String
deriving DecidableEq, Repr

/-- `root / target` when `target` is relative, else `target` itself
(the `check_path` of `validate_path_within_roots`). -/
def candidate_path (root : List String) (path : PyPath) : PyPath :=
  if path.absolute then path else ⟨true, root ++ path.parts⟩

/-- The `for root in roots` loop of `validate_path_within_roots`:
resolve the candidate, accept it if `resolved.relative_to(root)`
succeeds, else try the next root. -/
def validate_roots_loop (resolvefn : PyPath → List String) (path : PyPath) :
    List (List String) → Option (List String)
  | [] => none
  | root :: rest =>
    let resolved := resolvefn (candidate_path root path)
    if root.isPrefixOf resolved then some resolved
    else validate_roots_loop resolvefn path rest

/-- `validate_path_within_roots(path, search_roots)` with an explicit root
list (the `search_roots is not None` branch; roots are resolved first). -/
def validate_path_within_roots (resolvefn : PyPath → List String)
    (search_roots : List PyPath) (path : PyPath) : Except String (List String) :=
  let roots := search_roots.map resolvefn
  if roots.isEmpty then Except.error "Search roots not configured"
  else
    match validate_roots_loop resolvefn path roots with
    | some resolved => Except.ok resolved
    | none => Except.error "Access denied: path is outside all search roots"

/-- The spec's description of the same operation: the resolved form of the
first candidate that is a descendant of (or equal to) its corresponding
resolved root. -/
def first_qualifying_root (resolvefn : PyPath → List String) (path : PyPath)
    (roots : List (List String)) : Option (List String) :=
  match roots.find? (fun root => root.isPrefixOf (resolvefn (candidate_path root path))) with
  | some root => some (resolvefn (candidate_path root path))
  | none => none

theorem validate_roots_loop_eq (resolvefn : PyPath → List String) (path : PyPath) :
    ∀ roots, validate_roots_loop resolvefn path roots
      = first_qualifying_root resolvefn path roots := by
  intro roots
  induction roots with
  | nil => rfl
  | cons root rest ih =>
    simp only [validate_roots_loop, first_qualifying_root]
    by_cases h : root.isPrefixOf (resolvefn (candidate_path root path))
    · rw [List.find?_cons_of_pos _ (by simpa using h)]
      simp [h]
    · rw [List.find?_cons_of_neg _ (by simpa using h)]
      simp [h]
      rw [ih]
      rfl

/-- C2: with a non-empty configured root list, path validation returns the
resolved form of the first candidate that is a descendant of (or equal to)
its resolved root; it fails with the access-denied error exactly when no
root qualifies; and every path it returns extends some resolved root. -/
theorem c2_validate_path_within_roots (resolvefn : PyPath → List String)
    (search_roots : List PyPath) (path : PyPath) (hne : search_roots ≠ []) :
    (∀ r, validate_path_within_roots resolvefn search_roots path = Except.ok r ↔
      first_qualifying_root resolvefn path (search_roots.map resolvefn) = some r) ∧
    (validate_path_within_roots resolvefn search_roots path
        = Except.error "Access denied: path is outside all search roots" ↔
      ∀ root ∈ search_roots.map resolvefn,
        ¬ root.isPrefixOf (resolvefn (candidate_path root path))) ∧
    (∀ r, validate_path_within_roots resolvefn search_roots path = Except.ok r →
      ∃ root ∈ search_roots.map resolvefn, root <+: r) := by
  have hroots_ne : ¬ (search_roots.map resolvefn).isEmpty := by
    simpa [List.isEmpty_iff] using hne
  refine ⟨?_, ?_, ?_⟩
  · intro r
    simp only [validate_path_within_roots, if_neg hroots_ne,
      validate_roots_loop_eq]
    cases hfq : first_qualifying_root resolvefn path (search_roots.map resolvefn) with
    | none => simp
    | some v => simp
  · simp only [validate_path_within_roots, if_neg hroots_ne, validate_roots_loop_eq,
      first_qualifying_root]
    cases hf : (search_roots.map resolvefn).find?
        (fun root => root.isPrefixOf (resolvefn (candidate_path root path))) with
    | none =>
      simp only [true_iff]
      intro root hmem hpref
      have := List.find?_eq_none.mp hf root hmem
      simp [hpref] at this
    | some root =>
      simp only [reduceCtorEq, false_iff, not_forall]
      refine ⟨root, List.mem_of_find?_eq_some hf, ?_⟩
      have := List.find?_some hf
      simpa using this
  · intro r hok
    simp only [validate_path_within_roots, if_neg hroots_ne, validate_roots_loop_eq,
      first_qualifying_root] at hok
    cases hf : (search_roots.map resolvefn).find?
        (fun root => root.isPrefixOf (resolvefn (candidate_path root path))) with
    | none => rw [hf] at hok; simp at hok
    | some root =>
      rw [hf] at hok
      simp only [Except.ok.injEq] at hok
      refine ⟨root, List.mem_of_find?_eq_some hf, ?_⟩
      have hpref := List.find?_some hf
      rw [← hok]
      exact List.isPrefixOf_iff_prefix.mp (by simpa using hpref)

/-- Witness for C2: root `/allowed`, identity resolution; `/allowed/a.log`
is accepted and returned resolved, and it extends the root. -/
theorem c2_witness :
    (([⟨true, ["allowed"]⟩] : List PyPath) ≠ []) ∧
    ((∀ r, validate_path_within_roots (fun p => p.parts) [⟨true, ["allowed"]⟩]
        ⟨true, ["allowed", "a.log"]⟩ = Except.ok r ↔
      first_qualifying_root (fun p => p.parts) ⟨true, ["allowed", "a.log"]⟩
        ([⟨true, ["allowed"]⟩].map (fun p => PyPath.parts p)) = some r) ∧
    (validate_path_within_roots (fun p => p.parts) [⟨true, ["allowed"]⟩]
        ⟨true, ["allowed", "a.log"]⟩
        = Except.error "Access denied: path is outside all search roots" ↔
      ∀ root ∈ [⟨true, ["allowed"]⟩].map (fun p => PyPath.parts p),
        ¬ root.isPrefixOf ((fun p => PyPath.parts p)
          (candidate_path root ⟨true, ["allowed", "a.log"]⟩))) ∧
    (∀ r, validate_path_within_roots (fun p => p.parts) [⟨true, ["allowed"]⟩]
        ⟨true, ["allowed", "a.log"]⟩ = Except.ok r →
      ∃ root ∈ [⟨true, ["allowed"]⟩].map (fun p => PyPath.parts p), root <+: r)) :=
  ⟨by decide,
    c2_validate_path_within_roots (fun p => p.parts) [⟨true, ["allowed"]⟩]
      ⟨true, ["allowed", "a.log"]⟩ (by decide)⟩

/-! ## Index validity and rebuild policy (unified_index.py)

The `UnifiedFileIndex` model class itself is not part of the provided
sources; the fields used by `is_index_valid` / `needs_rebuild` are taken
from spec section 3 (UnifiedFileIndex): exact source size, source mtime
(an ISO-format string), the `analysis_performed` flag, and the optional
anomaly list (whose payload is abstracted to a string per anomaly).
`os.stat` is abstracted to an optional `(size, mtime)` pair; `none`
models the `OSError` branch. -/

structure UnifiedFileIndex where
  source_size_bytes : Nat
  source_modified_at : String
  analysis_performed : Bool
  anomalies : List String
deriving DecidableEq, Repr

/-- `is_index_valid(source_path, index)`: size and mtime must both match
the current stat; a stat failure means invalid. -/
def is_index_valid (stat : Option (Nat × String)) (index : UnifiedFileIndex) : Bool :=
  match stat with
  | none => false
  | some (size, mtime) =>
    index.source_modified_at == mtime && index.source_size_bytes == size

/-- `needs_rebuild(source_path, index, analyze)`. -/
def needs_rebuild (stat : Option (Nat × String)) (index : Option UnifiedFileIndex)
    (analyze : Bool) : Bool :=
  match index with
  | none => true
  | some i =>
    if ¬ is_index_valid stat i then true
    else if analyze && ¬ i.analysis_performed then true
    else false

/-- C3 (claim as frozen, refuted): the claimed fourth rebuild trigger —
anomalies requested but the cached record has none — does not exist in
`needs_rebuild`.  A valid record with `analysis_performed = true` and no
anomalies is kept even when `analyze = true`. -/
theorem c3_counterexample :
    ¬ (needs_rebuild (some (10, "t")) (some ⟨10, "t", true, []⟩) true = true ↔
      ((some (⟨10, "t", true, []⟩ : UnifiedFileIndex) = none) ∨
        is_index_valid (some (10, "t")) ⟨10, "t", true, []⟩ = false ∨
        (true = true ∧ (⟨10, "t", true, []⟩ : UnifiedFileIndex).analysis_performed = false) ∨
        (true = true ∧ (⟨10, "t", true, []⟩ : UnifiedFileIndex).anomalies = []))) := by
  decide

/-- C3 (amended): a rebuild is forced exactly when there is no cached
record, the record is invalid against the current `(size, mtime)`, or
analysis is requested and the record has `analysis_performed = false`.
The presence or absence of cached anomalies plays no role. -/
theorem c3_needs_rebuild_conditions (stat : Option (Nat × String))
    (index : Option UnifiedFileIndex) (analyze : Bool) :
    needs_rebuild stat index analyze = true ↔
      (index = none ∨
        ∃ i, index = some i ∧
          (is_index_valid stat i = false ∨
            (analyze = true ∧ i.analysis_performed = false))) := by
  cases index with
  | none => simp [needs_rebuild]
  | some i =>
    have hiff : (∃ j, i = j ∧ (is_index_valid stat j = false ∨
          (analyze = true ∧ j.analysis_performed = false)))
        ↔ (is_index_valid stat i = false ∨
          (analyze = true ∧ i.analysis_performed = false)) := by
      constructor
      · rintro ⟨j, rfl, h⟩; exact h
      · intro h; exact ⟨i, rfl, h⟩
    simp only [reduceCtorEq, false_or, Option.some.injEq]
    rw [hiff]
    cases hval : is_index_valid stat i <;> cases han : analyze <;>
      cases hperf : i.analysis_performed <;>
        simp [needs_rebuild, hval, han, hperf]

/-! ## Trace-cache eligibility (trace_cache.py / unified_index.py)

`get_large_file_threshold_bytes` reads `RX_LARGE_FILE_MB`; the environment
lookup plus `int()` parsing is abstracted to an optional integer (`none`
for unset/empty/unparseable). -/

def DEFAULT_LARGE_FILE_MB : Nat := 50

/-- `get_large_file_threshold_bytes()`: a positive configured value wins,
everything else falls back to the 50 MiB default. -/
def get_large_file_threshold_bytes (env : Option Int) : Nat :=
  match env with
  | some mb => if 0 < mb then mb.toNat * 1024 * 1024 else DEFAULT_LARGE_FILE_MB * 1024 * 1024
  | none => DEFAULT_LARGE_FILE_MB * 1024 * 1024

/-- `should_cache_file(file_size, max_results, scan_completed)`. -/
def should_cache_file (env : Option Int) (file_size : Nat) (max_results : Option Nat)
    (scan_completed : Bool) : Bool :=
  let threshold := get_large_file_threshold_bytes env
  if file_size < threshold then false
  else if max_results.isSome then false
  else if ¬ scan_completed then false
  else true

/-- C5: a scan is cacheable iff the file size is at least the large-file
threshold, `max_results` is unset, and the scan completed; in particular a
file of size exactly the threshold is cacheable. -/
theorem c5_should_cache_iff (env : Option Int) (file_size : Nat) (max_results : Option Nat)
    (scan_completed : Bool) :
    (should_cache_file env file_size max_results scan_completed = true ↔
      (get_large_file_threshold_bytes env ≤ file_size ∧ max_results = none ∧
        scan_completed = true)) ∧
    should_cache_file env (get_large_file_threshold_bytes env) none true = true := by
  constructor
  · simp only [should_cache_file]
    by_cases h1 : file_size < get_large_file_threshold_bytes env
    · simp [h1]
    · cases max_results with
      | none => cases scan_completed <;> (simp [h1]; try omega)
      | some m => simp [h1]
  · simp [should_cache_file]

/-! ## Trace-cache pattern hash (trace_cache.py)

`compute_patterns_hash` sorts the patterns, keeps only the
matching-affecting flags (sorted), serializes both as JSON with sorted
keys, and takes the first 16 hex characters of the SHA-256 digest.
Python's `sorted` on strings is embedded as a merge sort under the
lexicographic order; `json.dumps` (default options: `ensure_ascii`,
separators `", "` and `": "`, `sort_keys=True` putting `"flags"` before
`"patterns"`) is embedded byte-for-byte; SHA-256 is implemented over the
UTF-8 bytes. -/

def MATCHING_FLAGS : List String :=
  ["-i", "-w", "-x", "-F", "-P", "--case-sensitive", "--ignore-case"]

/-- Python's `sorted` on strings (lexicographic by code point). -/
def pySortedStrings (l : List String) : List String :=
  l.mergeSort (fun a b => decide (a ≤ b))

def toHexDigitLower (n : Nat) : Char :=
  if n < 10 then Char.ofNat (48 + n) else Char.ofNat (87 + n)

def hex4 (n : Nat) : String :=
  String.mk [toHexDigitLower (n / 4096 % 16), toHexDigitLower (n / 256 % 16),
    toHexDigitLower (n / 16 % 16), toHexDigitLower (n % 16)]

/-- `json.dumps` escape for one character (`ensure_ascii=True`): ASCII
0x20-0x7E pass through except `"` and `\`; control characters use the
short escapes; everything else becomes `\uXXXX` (surrogate pairs beyond
the BMP). -/
def json_escape_char (c : Char) : String :=
  if c = Char.ofNat 34 then "\\\"" else
  if c = Char.ofNat 92 then "\\\\" else
  if c.toNat = 10 then "\\n" else
  if c.toNat = 13 then "\\r" else
  if c.toNat = 9 then "\\t" else
  if c.toNat = 8 then "\\b" else
  if c.toNat = 12 then "\\f" else
  if c.toNat < 32 ∨ 126 < c.toNat then
    if c.toNat < 65536 then "\\u" ++ hex4 c.toNat
    else
      "\\u" ++ hex4 (55296 + (c.toNat - 65536) / 1024) ++
      "\\u" ++ hex4 (56320 + (c.toNat - 65536) % 1024)
  else String.singleton c

def json_quote (s : String) : String :=
  "\"" ++ String.join (s.data.map json_escape_char) ++ "\""

def json_string_list (xs : List String) : String :=
  "[" ++ String.intercalate ", " (xs.map json_quote) ++ "]"

/-- The `hash_input` string of `compute_patterns_hash`:
`json.dumps({"patterns": sorted_patterns, "flags": relevant_flags},
sort_keys=True)` — keys in sorted order, so `"flags"` first. -/
def patterns_hash_input (patterns rg_flags : List String) : String :=
  let sorted_patterns := pySortedStrings patterns
  let relevant_flags := pySortedStrings (rg_flags.filter (fun f => MATCHING_FLAGS.contains f))
  "\x7b\"flags\": " ++ json_string_list relevant_flags ++
    ", \"patterns\": " ++ json_string_list sorted_patterns ++ "\x7d"

/-! SHA-256 over a byte list (one `Nat` per byte), little helpers first.
All 32-bit arithmetic is `Nat` reduced modulo `2^32`. -/

def M32 : Nat := 4294967296

def rotr32 (x n : Nat) : Nat := ((x >>> n) ||| (x <<< (32 - n))) % M32

def u32be_of_bytes (l : List Nat) : Nat :=
  l.foldl (fun acc b => acc * 256 + b) 0

def bytes_be (width n : Nat) : List Nat :=
  (List.range width).map (fun i => n / 256 ^ (width - 1 - i) % 256)

def sha256_k : List Nat :=
  [1116352408, 1899447441, 3049323471, 3921009573, 961987163, 1508970993,
   2453635748, 2870763221, 3624381080, 310598401, 607225278, 1426881987,
   1925078388, 2162078206, 2614888103, 3248222580, 3835390401, 4022224774,
   264347078, 604807628, 770255983, 1249150122, 1555081692, 1996064986,
   2554220882, 2821834349, 2952996808, 3210313671, 3336571891, 3584528711,
   113926993, 338241895, 666307205, 773529912, 1294757372, 1396182291,
   1695183700, 1986661051, 2177026350, 2456956037, 2730485921, 2820302411,
   3259730800, 3345764771, 3516065817, 3600352804, 4094571909, 275423344,
   430227734, 506948616, 659060556, 883997877, 958139571, 1322822218,
   1537002063, 1747873779, 1955562222, 2024104815, 2227730452, 2361852424,
   2428436474, 2756734187, 3204031479, 3329325298]

def sha256_iv : List Nat :=
  [1779033703, 3144134277, 1013904242, 2773480762, 1359893119, 2600822924,
   528734635, 1541459225]

def sha256_pad (msg : List Nat) : List Nat :=
  msg ++ [128] ++ List.replicate ((119 - msg.length % 64) % 64) 0 ++ bytes_be 8 (msg.length * 8)

def chunk64 : Nat → List Nat → List (List Nat)
  | 0, _ => []
  | _ + 1, [] => []
  | fuel + 1, l => l.take 64 :: chunk64 fuel (l.drop 64)

def sha256_extend : Nat → List Nat → List Nat
  | 0, w => w
  | n + 1, w =>
    let i := w.length
    let x15 := w.getD (i - 15) 0
    let x2 := w.getD (i - 2) 0
    let s0 := (rotr32 x15 7) ^^^ (rotr32 x15 18) ^^^ (x15 >>> 3)
    let s1 := (rotr32 x2 17) ^^^ (rotr32 x2 19) ^^^ (x2 >>> 10)
    sha256_extend n (w ++ [(w.getD (i - 16) 0 + s0 + w.getD (i - 7) 0 + s1) % M32])

def sha256_round (w : List Nat) (st : List Nat) (i : Nat) : List Nat :=
  let a := st.getD 0 0
  let b := st.getD 1 0
  let c := st.getD 2 0
  let d := st.getD 3 0
  let e := st.getD 4 0
  let f := st.getD 5 0
  let g := st.getD 6 0
  let h := st.getD 7 0
  let s1 := (rotr32 e 6) ^^^ (rotr32 e 11) ^^^ (rotr32 e 25)
  let ch := (e &&& f) ^^^ ((M32 - 1 - e) &&& g)
  let t1 := (h + s1 + ch + sha256_k.getD i 0 + w.getD i 0) % M32
  let s0 := (rotr32 a 2) ^^^ (rotr32 a 13) ^^^ (rotr32 a 22)
  let mj := (a &&& b) ^^^ (a &&& c) ^^^ (b &&& c)
  let t2 := (s0 + mj) % M32
  [(t1 + t2) % M32, a, b, c, (d + t1) % M32, e, f, g]

def sha256_compress (h : List Nat) (block : List Nat) : List Nat :=
  let w16 := (List.range 16).map (fun i => u32be_of_bytes ((block.drop (4 * i)).take 4))
  let w := sha256_extend 48 w16
  let st := (List.range 64).foldl (sha256_round w) h
  (List.range 8).map (fun i => (h.getD i 0 + st.getD i 0) % M32)

def sha256_bytes (msg : List Nat) : List Nat :=
  let padded := sha256_pad msg
  let hfinal := (chunk64 padded.length padded).foldl sha256_compress sha256_iv
  (hfinal.map (bytes_be 4)).flatten

def sha256_hex (msg : List Nat) : String :=
  String.mk ((sha256_bytes msg).map
    (fun b => [toHexDigitLower (b / 16), toHexDigitLower (b % 16)])).flatten

def utf8_bytes (s : String) : List Nat := s.toUTF8.toList.map (fun b => b.toNat)

/-- `compute_patterns_hash(patterns, rg_flags)`: first 16 hex characters
of the SHA-256 of the canonical JSON serialization. -/
def compute_patterns_hash (patterns rg_flags : List String) : String :=
  (sha256_hex (utf8_bytes (patterns_hash_input patterns rg_flags))).take 16

theorem pySortedStrings_sorted (l : List String) :
    (pySortedStrings l).Sorted (fun a b : String => a ≤ b) := by
  have h := @List.sorted_mergeSort String (fun a b : String => decide (a ≤ b))
    (fun a b c hab hbc => decide_eq_true (le_trans (of_decide_eq_true hab) (of_decide_eq_true hbc)))
    (fun a b => by
      by_cases h : a ≤ b
      · simp [h]
      · simp [le_of_not_le h])
    l
  exact h.imp (fun hab => of_decide_eq_true hab)

theorem pySortedStrings_eq_of_perm {l₁ l₂ : List String} (h : l₁.Perm l₂) :
    pySortedStrings l₁ = pySortedStrings l₂ := by
  have hanti : IsAntisymm String (fun a b : String => a ≤ b) := ⟨fun _ _ => le_antisymm⟩
  exact List.eq_of_perm_of_sorted
    ((List.mergeSort_perm l₁ _).trans (h.trans (List.mergeSort_perm l₂ _).symm))
    (pySortedStrings_sorted l₁) (pySortedStrings_sorted l₂)

/-- C6: the trace-cache pattern hash is invariant under permuting the
pattern list and under any change of the flag list that preserves (as a
multiset) its matching-affecting part: flags outside
`MATCHING_FLAGS` and the order of patterns and flags never influence the
hash. -/
theorem c6_patterns_hash_invariant (p1 p2 f1 f2 : List String)
    (hp : p1.Perm p2)
    (hf : (f1.filter (fun f => MATCHING_FLAGS.contains f)).Perm
      (f2.filter (fun f => MATCHING_FLAGS.contains f))) :
    compute_patterns_hash p1 f1 = compute_patterns_hash p2 f2 := by
  have h1 : patterns_hash_input p1 f1 = patterns_hash_input p2 f2 := by
    unfold patterns_hash_input
    rw [pySortedStrings_eq_of_perm hp, pySortedStrings_eq_of_perm hf]
  unfold compute_patterns_hash
  rw [h1]

/-- Witness for C6: permuted patterns, reordered flags, and an extra
non-matching flag produce the same hash. -/
theorem c6_witness :
    (["b", "a"] : List String).Perm ["a", "b"] ∧
      ((["--json", "-i"] : List String).filter (fun f => MATCHING_FLAGS.contains f)).Perm
        ((["-i", "--heading"] : List String).filter (fun f => MATCHING_FLAGS.contains f)) ∧
      compute_patterns_hash ["b", "a"] ["--json", "-i"]
        = compute_patterns_hash ["a", "b"] ["-i", "--heading"] :=
  ⟨by decide, by decide,
    c6_patterns_hash_invariant ["b", "a"] ["a", "b"] ["--json", "-i"] ["-i", "--heading"]
      (by decide) (by decide)⟩

/-! ## Index cache key (unified_index.py)

`get_cache_key` builds `<safe-basename>_<sha256(abspath)[:16]>`.
`os.path.abspath` / `os.path.basename` (POSIX) are embedded from their
CPython definitions, with the process working directory as an explicit
argument.  Python's Unicode-aware `str.isalnum` is embedded exactly for
code points up to U+00FF (ASCII plus the Latin-1 supplement); the model
returns `false` above that range, and the theorems below apply it only
within it. -/

/-- `str.isalnum()` on the ASCII and Latin-1 range: ASCII letters and
digits, plus the Latin-1 letters and numeric characters
(ª ² ³ µ ¹ º ¼ ½ ¾ À-Ö Ø-ö ø-ÿ; × and ÷ are excluded). -/
def python_isalnum (c : Char) : Bool :=
  let n := c.toNat
  if n < 128 then c.isAlphanum
  else if n < 160 then false
  else if n ≤ 255 then
    (n = 170) || (n = 178) || (n = 179) || (n = 181) || (n = 185) || (n = 186) ||
    (188 ≤ n && n ≤ 190) || (192 ≤ n && n ≤ 214) || (216 ≤ n && n ≤ 246) || (248 ≤ n)
  else false

/-- The sanitizer inside `get_cache_key`:
`''.join(c if c.isalnum() or c in '._-' else '_' for c in basename)`. -/
def sanitize_basename (name : String) : String :=
  String.mk (name.data.map (fun c =>
    if python_isalnum c || c = '.' || c = '_' || c = '-' then c else '_'))

/-- Worker for `posix_basename`: keep the characters after the last
slash. -/
def basename_chars : List Char → List Char → List Char
  | [], acc => acc.reverse
  | c :: rest, acc =>
    if c = '/' then basename_chars rest [] else basename_chars rest (c :: acc)

/-- POSIX `os.path.basename`: everything after the last slash. -/
def posix_basename (p : String) : String := String.mk (basename_chars p.data [])

/-- Split a character list on slashes (Python's `p.split('/')`). -/
def split_slash : List Char → List Char → List String
  | [], acc => [String.mk acc.reverse]
  | c :: rest, acc =>
    if c = '/' then String.mk acc.reverse :: split_slash rest []
    else split_slash rest (c :: acc)

/-- The component loop of POSIX `os.path.normpath` (CPython): skip empty
and `.` components; `..` pops unless at the root or stacked on `..`. -/
def normpath_fold (initial_slashes : Nat) : List String → List String → List String
  | [], acc => acc.reverse
  | comp :: rest, acc =>
    if comp = "" ∨ comp = "." then normpath_fold initial_slashes rest acc
    else if comp ≠ ".." then normpath_fold initial_slashes rest (comp :: acc)
    else if initial_slashes = 0 ∧ acc = [] then normpath_fold initial_slashes rest (comp :: acc)
    else if acc.head? = some ".." then normpath_fold initial_slashes rest (comp :: acc)
    else if acc ≠ [] then normpath_fold initial_slashes rest acc.tail
    else normpath_fold initial_slashes rest acc

/-- POSIX `os.path.normpath`. -/
def normpath (p : String) : String :=
  let initial_slashes : Nat :=
    if p.startsWith "//" ∧ ¬ p.startsWith "///" then 2
    else if p.startsWith "/" then 1 else 0
  let new_comps := normpath_fold initial_slashes (split_slash p.data []) []
  let result := String.mk (List.replicate initial_slashes '/')
    ++ String.intercalate "/" new_comps
  if result = "" then "." else result

/-- POSIX `os.path.join` for two components. -/
def posix_join (a b : String) : String :=
  if b.startsWith "/" then b
  else if a.endsWith "/" ∨ a = "" then a ++ b
  else a ++ "/" ++ b

/-- POSIX `os.path.abspath` with an explicit working directory. -/
def posix_abspath (cwd p : String) : String := normpath (posix_join cwd p)

/-- `get_cache_key(file_path)`; the working directory consulted by
`os.path.abspath` is an explicit first argument. -/
def get_cache_key (cwd file_path : String) : String :=
  let abs_path := posix_abspath cwd file_path
  let path_hash := (sha256_hex (utf8_bytes abs_path)).take 16
  let safe_basename := sanitize_basename (posix_basename file_path)
  safe_basename ++ "_" ++ path_hash

/-- Membership in the character class `[A-Za-z0-9._-]`. -/
def isSafeCacheChar (c : Char) : Bool := c.isAlphanum || c = '.' || c = '_' || c = '-'

/-- C9 (claim as frozen, refuted): Python's `isalnum` is Unicode-aware, so
a non-ASCII alphanumeric basename character such as `é` survives
sanitization, and the produced cache file name contains a character
outside `[A-Za-z0-9._-]`. -/
theorem c9_counterexample :
    'é' ∈ (get_cache_key "/" "/logs/é.log").data ∧ isSafeCacheChar 'é' = false := by
  constructor
  · have hkey : get_cache_key "/" "/logs/é.log"
        = sanitize_basename (posix_basename "/logs/é.log") ++ "_"
          ++ (sha256_hex (utf8_bytes (posix_abspath "/" "/logs/é.log"))).take 16 := rfl
    have hbase : sanitize_basename (posix_basename "/logs/é.log") = "é.log" := by decide
    rw [hkey, hbase, String.data_append, String.data_append]
    apply List.mem_append_left
    apply List.mem_append_left
    decide
  · decide

/-- C9 (amended): the cache file name is the sanitized basename, `_`, and
the first 16 hex characters of the SHA-256 of the absolute path; for an
ASCII basename the sanitized basename uses only `[A-Za-z0-9._-]` (in
general, Unicode alphanumerics also survive sanitization). -/
theorem c9_cache_key_format (cwd file_path : String)
    (hascii : ∀ c ∈ (posix_basename file_path).data, c.toNat < 128) :
    get_cache_key cwd file_path
      = sanitize_basename (posix_basename file_path) ++ "_"
        ++ (sha256_hex (utf8_bytes (posix_abspath cwd file_path))).take 16 ∧
    ∀ c ∈ (sanitize_basename (posix_basename file_path)).data, isSafeCacheChar c = true := by
  refine ⟨rfl, ?_⟩
  intro c hc
  have hc2 : c ∈ (posix_basename file_path).data.map (fun c =>
      if python_isalnum c || c = '.' || c = '_' || c = '-' then c else '_') := hc
  rcases List.mem_map.mp hc2 with ⟨c', hc', hmap⟩
  have hlt : c'.toNat < 128 := hascii c' hc'
  by_cases hcond : python_isalnum c' || c' = '.' || c' = '_' || c' = '-'
  · rw [if_pos hcond] at hmap
    subst hmap
    simp only [Bool.or_eq_true, decide_eq_true_eq] at hcond
    rcases hcond with ((hal | hdot) | hus) | hdash
    · have : c'.isAlphanum = true := by
        unfold python_isalnum at hal
        rwa [if_pos hlt] at hal
      simp [isSafeCacheChar, this]
    · simp [isSafeCacheChar, hdot]
    · simp [isSafeCacheChar, hus]
    · simp [isSafeCacheChar, hdash]
  · rw [if_neg hcond] at hmap
    subst hmap
    decide

/-- Witness for C9 at a concrete ASCII path. -/
theorem c9_witness :
    (∀ c ∈ (posix_basename "/var/log/app.log").data, c.toNat < 128) ∧
      (get_cache_key "/" "/var/log/app.log"
        = sanitize_basename (posix_basename "/var/log/app.log") ++ "_"
          ++ (sha256_hex (utf8_bytes (posix_abspath "/" "/var/log/app.log"))).take 16 ∧
      ∀ c ∈ (sanitize_basename (posix_basename "/var/log/app.log")).data,
        isSafeCacheChar c = true) :=
  ⟨by decide, c9_cache_key_format "/" "/var/log/app.log" (by decide)⟩

/-! ## Multi-file worker allocation (scheduler.py)

Files are supplied as `(path, size)` pairs (the `os.path.exists` /
`os.path.isfile` filtering happens before sizes are known; the embedding
takes the surviving files as input).  The proportional share
`int(file_potential / total_potential * max_subprocesses)` is computed
with Python floats; it is abstracted as an arbitrary function
`propAlloc potential total`, so every theorem below holds for whatever
value the float expression produces. -/

structure FileTask where
  filepath : String
  file_size : Nat
  num_workers : Nat
deriving DecidableEq, Repr, Inhabited

/-- The allocation loop of `calculate_file_workers`: every file before the
last gets `min(max(1, propAlloc), potential)` capped by the remaining
budget; the last file gets the whole remaining budget; once the budget is
exhausted the remaining files are appended with 0 workers. -/
def alloc_loop (propAlloc : Nat → Nat → Nat) (W totalPot : Nat) :
    List (String × Nat × Nat) → Nat → List FileTask
  | [], _ => []
  | (p, sz, pot) :: rest, totalAlloc =>
    let w0 : Nat :=
      if rest.isEmpty then W - totalAlloc
      else
        min (if 0 < totalPot then max 1 (propAlloc pot totalPot) else 1) pot
    let workers := min (max 1 w0) (W - totalAlloc)
    let tasks_here := if 0 < workers then [FileTask.mk p sz workers] else []
    let totalAlloc' := if 0 < workers then totalAlloc + workers else totalAlloc
    if W ≤ totalAlloc' then
      tasks_here ++ rest.map (fun q => FileTask.mk q.1 q.2.1 0)
    else
      tasks_here ++ alloc_loop propAlloc W totalPot rest totalAlloc'

/-- `calculate_file_workers(filepaths, max_subprocesses, min_chunk_size)`:
potential chunks are `max(1, size // min_chunk_size)`. -/
def calculate_file_workers (propAlloc : Nat → Nat → Nat) (files : List (String × Nat))
    (max_subprocesses min_chunk_size : Nat) : List FileTask :=
  if files.isEmpty then []
  else
    let file_info := files.map (fun f => (f.1, f.2, max 1 (f.2 / min_chunk_size)))
    let total_potential := (file_info.map (fun x => x.2.2)).sum
    alloc_loop propAlloc max_subprocesses total_potential file_info 0

theorem alloc_loop_props (propAlloc : Nat → Nat → Nat) (W totalPot : Nat) :
    ∀ (fi : List (String × Nat × Nat)) (ta : Nat), ta < W → (∀ x ∈ fi, 1 ≤ x.2.2) →
      ((alloc_loop propAlloc W totalPot fi ta).map FileTask.filepath
        = fi.map (fun x => x.1)) ∧
      ((alloc_loop propAlloc W totalPot fi ta).map FileTask.num_workers).sum ≤ W - ta ∧
      (∀ k, k < (alloc_loop propAlloc W totalPot fi ta).length →
        ((alloc_loop propAlloc W totalPot fi ta).getD k default).num_workers = 0 →
        W ≤ ta + (((alloc_loop propAlloc W totalPot fi ta).take k).map
          FileTask.num_workers).sum) ∧
      (∀ k, k + 1 < (alloc_loop propAlloc W totalPot fi ta).length →
        ((alloc_loop propAlloc W totalPot fi ta).getD k default).num_workers
          ≤ (fi.getD k ("", 0, 0)).2.2) := by
  intro fi
  induction fi with
  | nil =>
    intro ta hta _
    refine ⟨rfl, Nat.zero_le _, ?_, ?_⟩
    · intro k hk
      simp [show alloc_loop propAlloc W totalPot [] ta = [] from rfl] at hk
    · intro k hk
      simp [show alloc_loop propAlloc W totalPot [] ta = [] from rfl] at hk
  | cons f rest ih =>
    intro ta hta hpot
    obtain ⟨p, sz, pot⟩ := f
    have hpot1 : 1 ≤ pot := hpot (p, sz, pot) (by simp)
    simp only [alloc_loop]
    set w0 : Nat :=
      (if rest.isEmpty then W - ta
       else min (if 0 < totalPot then max 1 (propAlloc pot totalPot) else 1) pot) with hw0
    set workers := min (max 1 w0) (W - ta) with hworkers
    have hw1 : 0 < workers := by
      rw [hworkers]
      have : 1 ≤ W - ta := by omega
      omega
    have hwle : workers ≤ W - ta := by rw [hworkers]; omega
    have hcap : ¬ rest.isEmpty → workers ≤ pot := by
      intro hrest
      rw [hworkers, hw0]
      rw [if_neg hrest]
      have hminpot : min (if 0 < totalPot then max 1 (propAlloc pot totalPot) else 1) pot
          ≤ pot := min_le_right _ _
      omega
    simp only [if_pos hw1]
    by_cases hdone : W ≤ ta + workers
    · rw [if_pos hdone]
      refine ⟨?_, ?_, ?_, ?_⟩
      · simp
      · simp only [List.singleton_append, List.map_cons, List.sum_cons, List.map_map]
        have hz : (List.map (FileTask.num_workers ∘ fun q : String × Nat × Nat =>
            FileTask.mk q.1 q.2.1 0) rest).sum = 0 := by
          apply List.sum_eq_zero
          intro x hx
          rcases List.mem_map.mp hx with ⟨q, _, rfl⟩
          rfl
        rw [hz]
        omega
      · intro k hk hzero
        cases k with
        | zero =>
          simp at hzero
          omega
        | succ j =>
          simp only [List.singleton_append, List.take_succ_cons, List.map_cons, List.sum_cons]
          omega
      · intro k hk
        cases k with
        | zero =>
          simp only [List.singleton_append, List.length_cons] at hk
          have hrest : ¬ rest.isEmpty := by
            intro hempty
            rw [List.isEmpty_iff.mp hempty] at hk
            simp at hk
          simpa using hcap hrest
        | succ j =>
          simp only [List.singleton_append, List.getD_cons_succ]
          have hzero : ((rest.map (fun q => FileTask.mk q.1 q.2.1 0)).getD j
              default).num_workers = 0 := by
            by_cases hj : j < rest.length
            · rw [List.getD_eq_getElem _ _ (by simpa using hj)]
              simp
            · rw [List.getD_eq_default _ _ (by simpa using hj)]
              rfl
          rw [hzero]
          exact Nat.zero_le _
    · rw [if_neg hdone]
      have hta' : ta + workers < W := by omega
      obtain ⟨ihpath, ihsum, ihzero, ihcap⟩ :=
        ih (ta + workers) hta' (fun x hx => hpot x (List.mem_cons_of_mem _ hx))
      refine ⟨?_, ?_, ?_, ?_⟩
      · simpa using ihpath
      · simp only [List.singleton_append, List.map_cons, List.sum_cons]
        omega
      · intro k hk hzero
        cases k with
        | zero =>
          simp at hzero
          omega
        | succ j =>
          simp only [List.singleton_append, List.getD_cons_succ] at hzero
          simp only [List.singleton_append, List.length_cons] at hk
          have := ihzero j (by omega) hzero
          simp only [List.singleton_append, List.take_succ_cons, List.map_cons, List.sum_cons]
          omega
      · intro k hk
        cases k with
        | zero =>
          simp only [List.singleton_append, List.length_cons] at hk
          have hrest : ¬ rest.isEmpty := by
            intro hempty
            rw [List.isEmpty_iff.mp hempty] at hk
            simp [alloc_loop] at hk
          simpa using hcap hrest
        | succ j =>
          simp only [List.singleton_append, List.getD_cons_succ, List.length_cons] at hk ⊢
          exact ihcap j (by omega)

/-- C8 (amended): for every non-empty file list and budget `W ≥ 1`,
`calculate_file_workers` returns one task per file in order; the total
allocation never exceeds `W`; a file carries 0 workers only when the
budget was already exhausted by the earlier files; and every file *before
the last* is capped by its potential chunk count
`max(1, size // min_chunk_size)`.  (The last file receives the whole
remaining budget, which can exceed its potential — see the
counterexample.) -/
theorem c8_worker_allocation (propAlloc : Nat → Nat → Nat) (files : List (String × Nat))
    (W min_chunk : Nat) (hW : 1 ≤ W) (hne : files ≠ []) :
    ((calculate_file_workers propAlloc files W min_chunk).map FileTask.filepath
      = files.map Prod.fst) ∧
    ((calculate_file_workers propAlloc files W min_chunk).map FileTask.num_workers).sum ≤ W ∧
    (∀ k, k < (calculate_file_workers propAlloc files W min_chunk).length →
      ((calculate_file_workers propAlloc files W min_chunk).getD k default).num_workers = 0 →
      W ≤ (((calculate_file_workers propAlloc files W min_chunk).take k).map
        FileTask.num_workers).sum) ∧
    (∀ k, k + 1 < (calculate_file_workers propAlloc files W min_chunk).length →
      ((calculate_file_workers propAlloc files W min_chunk).getD k default).num_workers
        ≤ max 1 ((files.getD k ("", 0)).2 / min_chunk)) := by
  have hfe : ¬ files.isEmpty := by simpa [List.isEmpty_iff] using hne
  obtain ⟨hpath, hsum, hzero, hcap⟩ := alloc_loop_props propAlloc W
    ((files.map (fun f => (f.1, f.2, max 1 (f.2 / min_chunk)))).map (fun x => x.2.2)).sum
    (files.map (fun f => (f.1, f.2, max 1 (f.2 / min_chunk)))) 0 (by omega)
    (by
      intro x hx
      rcases List.mem_map.mp hx with ⟨f, _, rfl⟩
      simp)
  have hcalc : calculate_file_workers propAlloc files W min_chunk
      = alloc_loop propAlloc W
        ((files.map (fun f => (f.1, f.2, max 1 (f.2 / min_chunk)))).map (fun x => x.2.2)).sum
        (files.map (fun f => (f.1, f.2, max 1 (f.2 / min_chunk)))) 0 := by
    simp [calculate_file_workers, hfe]
  rw [hcalc]
  refine ⟨?_, by simpa using hsum, by simpa using hzero, ?_⟩
  · rw [hpath, List.map_map]
    rfl
  · intro k hk
    have hlen : (alloc_loop propAlloc W
        ((files.map (fun f => (f.1, f.2, max 1 (f.2 / min_chunk)))).map (fun x => x.2.2)).sum
        (files.map (fun f => (f.1, f.2, max 1 (f.2 / min_chunk)))) 0).length
        = files.length := by
      have := congrArg List.length hpath
      simpa using this
    have hklt : k < files.length := by omega
    have hinfo : ((files.map (fun f => (f.1, f.2, max 1 (f.2 / min_chunk)))).getD k ("", 0, 0))
        = ((files.getD k ("", 0)).1, (files.getD k ("", 0)).2,
          max 1 ((files.getD k ("", 0)).2 / min_chunk)) := by
      rw [List.getD_eq_getElem _ _ (by simpa using hklt), List.getD_eq_getElem _ _ hklt]
      simp
    have := hcap k hk
    rw [hinfo] at this
    simpa using this

/-- C8 (claim as frozen, refuted): a single 5 MiB file with
`min_chunk_size = 20 MiB` has potential `max(1, 5 MiB // 20 MiB) = 1`,
yet as the last (only) file it receives the entire budget of 20 workers. -/
theorem c8_counterexample :
    calculate_file_workers (fun _ _ => 0) [("small.log", 5242880)] 20 20971520
      = [FileTask.mk "small.log" 5242880 20] ∧
    max 1 (5242880 / 20971520) = 1 ∧ ¬ (20 : Nat) ≤ 1 := by
  decide

/-- Witness for C8 at concrete inputs. -/
theorem c8_witness :
    (1 ≤ 3 ∧ ([("a", 100), ("b", 200)] : List (String × Nat)) ≠ []) ∧
    (((calculate_file_workers (fun pot tot => pot * 3 / tot) [("a", 100), ("b", 200)] 3 1).map
        FileTask.filepath = [("a", 100), ("b", 200)].map Prod.fst) ∧
    ((calculate_file_workers (fun pot tot => pot * 3 / tot) [("a", 100), ("b", 200)] 3 1).map
        FileTask.num_workers).sum ≤ 3 ∧
    (∀ k, k < (calculate_file_workers (fun pot tot => pot * 3 / tot)
        [("a", 100), ("b", 200)] 3 1).length →
      ((calculate_file_workers (fun pot tot => pot * 3 / tot)
        [("a", 100), ("b", 200)] 3 1).getD k default).num_workers = 0 →
      3 ≤ (((calculate_file_workers (fun pot tot => pot * 3 / tot)
        [("a", 100), ("b", 200)] 3 1).take k).map FileTask.num_workers).sum) ∧
    (∀ k, k + 1 < (calculate_file_workers (fun pot tot => pot * 3 / tot)
        [("a", 100), ("b", 200)] 3 1).length →
      ((calculate_file_workers (fun pot tot => pot * 3 / tot)
        [("a", 100), ("b", 200)] 3 1).getD k default).num_workers
        ≤ max 1 (([("a", 100), ("b", 200)].getD k ("", 0)).2 / 1))) :=
  ⟨⟨by decide, by decide⟩,
    c8_worker_allocation (fun pot tot => pot * 3 / tot) [("a", 100), ("b", 200)] 3 1
      (by decide) (by decide)⟩

/-! ## Seekable zstd container (seekable_zstd.py)

The container is a byte list: independently compressed frames followed by
a skippable frame holding the seek table and a 9-byte footer.  The zstd
codec itself is external (`pyzstd` / `zstandard`); it enters as a pair of
functions `compress` / `decompress` together with the round-trip
hypothesis `decompress (compress b) = b`.  `struct.pack("<I", n)` demands
`n < 2^32`; the corresponding bounds appear as hypotheses. -/

structure FrameInfo where
  index : Nat
  compressed_offset : Nat
  compressed_size : Nat
  decompressed_offset : Nat
  decompressed_size : Nat
deriving DecidableEq, Repr, Inhabited

def FrameInfo.decompressed_end (f : FrameInfo) : Nat :=
  f.decompressed_offset + f.decompressed_size

def SEEK_TABLE_FOOTER_MAGIC : Nat := 0x8F92EAB1

def SEEKABLE_MAGIC : Nat := 0x184D2A5E

/-- `struct.pack("<I", n)` (for `n < 2^32`). -/
def u32le (n : Nat) : List Nat :=
  [n % 256, n / 256 % 256, n / 65536 % 256, n / 16777216 % 256]

/-- `struct.unpack("<I", bytes)[0]`. -/
def parse_u32le (l : List Nat) : Nat :=
  l.getD 0 0 + 256 * l.getD 1 0 + 65536 * l.getD 2 0 + 16777216 * l.getD 3 0

/-- Split off everything up to and including the first newline byte
(the `extra_chunk` scan of `_create_with_pyzstd`); if there is none, the
whole list is consumed. -/
def find_nl_split : List Nat → List Nat × List Nat
  | [] => ([], [])
  | b :: rest =>
    if b = 10 then ([10], rest)
    else
      let p := find_nl_split rest
      (b :: p.1, p.2)

/-- The chunking loop of `_create_with_pyzstd`: read about `frame_size`
bytes, then extend forward to the next newline (or EOF).  Structured with
explicit fuel so that it evaluates in the kernel; `pyzstd_chunks` supplies
enough fuel for any positive frame size. -/
def pyzstd_chunks_fuel : Nat → Nat → List Nat → List (List Nat)
  | 0, _, _ => []
  | fuel + 1, frame_size, input =>
    let chunk0 := input.take frame_size
    if chunk0.isEmpty then []
    else if chunk0.getLast? = some 10 then
      chunk0 :: pyzstd_chunks_fuel fuel frame_size (input.drop frame_size)
    else
      let p := find_nl_split (input.drop frame_size)
      (chunk0 ++ p.1) :: pyzstd_chunks_fuel fuel frame_size p.2

def pyzstd_chunks (frame_size : Nat) (input : List Nat) : List (List Nat) :=
  pyzstd_chunks_fuel (input.length + 1) frame_size input

/-- The `FrameInfo` accumulation of `_create_with_pyzstd`: frame index,
running compressed offset, running decompressed offset. -/
def frames_acc (compress : List Nat → List Nat) :
    List (List Nat) → Nat → Nat → Nat → List FrameInfo
  | [], _, _, _ => []
  | c :: cs, i, co, dof =>
    FrameInfo.mk i co (compress c).length dof c.length ::
      frames_acc compress cs (i + 1) (co + (compress c).length) (dof + c.length)

/-- `_write_seek_table`: per-frame entries, footer, skippable-frame
header. -/
def write_seek_table (frames : List FrameInfo) : List Nat :=
  let seek_entries :=
    (frames.map (fun f => u32le f.compressed_size ++ u32le f.decompressed_size)).flatten
  let footer := u32le SEEK_TABLE_FOOTER_MAGIC ++ u32le frames.length ++ [0]
  let seek_table := seek_entries ++ footer
  let skippable_header := u32le SEEKABLE_MAGIC ++ u32le seek_table.length
  skippable_header ++ seek_table

/-- `_create_with_pyzstd`: compressed frames followed by the seek table. -/
def create_with_pyzstd (compress : List Nat → List Nat) (frame_size : Nat)
    (input : List Nat) : List Nat :=
  let chunks := pyzstd_chunks frame_size input
  (chunks.map compress).flatten ++ write_seek_table (frames_acc compress chunks 0 0 0)

/-- The entry-parsing loop of `read_seek_table` (per-iteration slices are
taken relative to the remaining data rather than by absolute offset). -/
def parse_seek_entries (entry_size : Nat) :
    Nat → List Nat → Nat → Nat → Nat → List FrameInfo
  | 0, _, _, _, _ => []
  | n + 1, data, i, co, dof =>
    let cs := parse_u32le (data.take 4)
    let ds := parse_u32le ((data.drop 4).take 4)
    FrameInfo.mk i co cs dof ds ::
      parse_seek_entries entry_size n (data.drop entry_size) (i + 1) (co + cs) (dof + ds)

/-- `read_seek_table`: footer from the last 9 bytes, then the entry block
just before it; `none` models the raised `ValueError` / `OSError` /
`struct.error` paths. -/
def read_seek_table (file : List Nat) : Option (List FrameInfo) :=
  if file.length < 9 then none
  else
    let footer := file.drop (file.length - 9)
    let magic := parse_u32le (footer.take 4)
    if magic ≠ SEEK_TABLE_FOOTER_MAGIC then none
    else
      let num_frames := parse_u32le ((footer.drop 4).take 4)
      let flags := footer.getD 8 0
      let entry_size := if flags % 2 = 1 then 12 else 8
      let seek_table_size := num_frames * entry_size
      if file.length < 9 + seek_table_size then none
      else
        some (parse_seek_entries entry_size num_frames
          ((file.drop (file.length - 9 - seek_table_size)).take seek_table_size) 0 0 0)

/-- `decompress_frame`: decompress the frame's compressed byte slice. -/
def decompress_frame (decompress : List Nat → List Nat) (file : List Nat)
    (frames : List FrameInfo) (frame_index : Nat) : List Nat :=
  let f := frames.getD frame_index default
  decompress ((file.drop f.compressed_offset).take f.compressed_size)

/-- `decompress_range(zst_path, start_offset, length, frames)`. -/
def decompress_range (decompress : List Nat → List Nat) (file : List Nat)
    (frames : List FrameInfo) (start_offset length : Nat) : List Nat :=
  let end_offset := start_offset + length
  let needed_frames := (frames.filter (fun f =>
    f.decompressed_offset < end_offset && start_offset < f.decompressed_end)).map
      FrameInfo.index
  if needed_frames.isEmpty then []
  else
    let result := (needed_frames.map (fun idx =>
      let f := frames.getD idx default
      let frame_data := decompress_frame decompress file frames idx
      let frame_start := start_offset - f.decompressed_offset
      let frame_end := min frame_data.length (end_offset - f.decompressed_offset)
      (frame_data.drop frame_start).take (frame_end - frame_start))).flatten
    result.take length

theorem find_nl_split_append : ∀ l : List Nat, (find_nl_split l).1 ++ (find_nl_split l).2 = l := by
  intro l
  induction l with
  | nil => rfl
  | cons b rest ih =>
    simp only [find_nl_split]
    by_cases h : b = 10
    · simp [h]
    · simp [h, ih]

theorem pyzstd_chunks_fuel_spec (frame_size : Nat) (hfs : 0 < frame_size) :
    ∀ (fuel : Nat) (input : List Nat), input.length < fuel →
      (pyzstd_chunks_fuel fuel frame_size input).flatten = input ∧
      ∀ c ∈ pyzstd_chunks_fuel fuel frame_size input, c ≠ [] := by
  intro fuel
  induction fuel with
  | zero => intro input h; omega
  | succ fuel ih =>
    intro input hlen
    by_cases hch : (input.take frame_size).isEmpty
    · have hinput : input = [] := by
        rcases List.take_eq_nil_iff.mp (List.isEmpty_iff.mp hch) with h | h
        · omega
        · exact h
      subst hinput
      simp [pyzstd_chunks_fuel]
    · have hne : input ≠ [] := by
        intro h
        rw [h] at hch
        simp at hch
      have hpos : 0 < input.length := List.length_pos.mpr hne
      have htne : input.take frame_size ≠ [] := fun h => hch (by simp [h])
      by_cases hnl : (input.take frame_size).getLast? = some 10
      · simp only [pyzstd_chunks_fuel, if_neg hch, if_pos hnl]
        have hrest : (input.drop frame_size).length < fuel := by
          rw [List.length_drop]
          omega
        obtain ⟨ihfl, ihne⟩ := ih (input.drop frame_size) hrest
        constructor
        · rw [List.flatten_cons, ihfl, List.take_append_drop]
        · intro c hc
          rcases List.mem_cons.mp hc with rfl | hc
          · exact htne
          · exact ihne c hc
      · simp only [pyzstd_chunks_fuel, if_neg hch, if_neg hnl]
        have hsplit := find_nl_split_append (input.drop frame_size)
        have hrest : (find_nl_split (input.drop frame_size)).2.length < fuel := by
          have h1 := congrArg List.length hsplit
          rw [List.length_append, List.length_drop] at h1
          omega
        obtain ⟨ihfl, ihne⟩ := ih (find_nl_split (input.drop frame_size)).2 hrest
        constructor
        · rw [List.flatten_cons, ihfl, List.append_assoc, hsplit, List.take_append_drop]
        · intro c hc
          rcases List.mem_cons.mp hc with rfl | hc
          · intro habs
            rw [List.append_eq_nil] at habs
            exact htne habs.1
          · exact ihne c hc

theorem pyzstd_chunks_flatten (frame_size : Nat) (hfs : 0 < frame_size) (input : List Nat) :
    (pyzstd_chunks frame_size input).flatten = input :=
  (pyzstd_chunks_fuel_spec frame_size hfs (input.length + 1) input (by omega)).1

theorem pyzstd_chunks_ne_nil (frame_size : Nat) (hfs : 0 < frame_size) (input : List Nat) :
    ∀ c ∈ pyzstd_chunks frame_size input, c ≠ [] :=
  (pyzstd_chunks_fuel_spec frame_size hfs (input.length + 1) input (by omega)).2

theorem length_le_flatten_length :
    ∀ ls : List (List Nat), (∀ c ∈ ls, c ≠ []) → ls.length ≤ ls.flatten.length := by
  intro ls
  induction ls with
  | nil => intro _; simp
  | cons c cs ih =>
    intro hne
    have hc : 1 ≤ c.length := List.length_pos.mpr (hne c (by simp))
    have := ih (fun x hx => hne x (List.mem_cons_of_mem c hx))
    simp only [List.length_cons, List.flatten_cons, List.length_append]
    omega

theorem frames_acc_length (compress : List Nat → List Nat) :
    ∀ (cs : List (List Nat)) (i co dof : Nat),
      (frames_acc compress cs i co dof).length = cs.length := by
  intro cs
  induction cs with
  | nil => intro i co dof; rfl
  | cons c rest ih =>
    intro i co dof
    simp [frames_acc, ih]

theorem frames_acc_ds_sum (compress : List Nat → List Nat) :
    ∀ (cs : List (List Nat)) (i co dof : Nat),
      ((frames_acc compress cs i co dof).map FrameInfo.decompressed_size).sum
        = (cs.map List.length).sum := by
  intro cs
  induction cs with
  | nil => intro i co dof; rfl
  | cons c rest ih =>
    intro i co dof
    simp [frames_acc, ih]

theorem frames_acc_retrieve (compress : List Nat → List Nat) :
    ∀ (cs : List (List Nat)) (i co dof : Nat) (f : FrameInfo),
      f ∈ frames_acc compress cs i co dof →
      i ≤ f.index ∧ (frames_acc compress cs i co dof).getD (f.index - i) default = f := by
  intro cs
  induction cs with
  | nil => intro i co dof f hf; simp [frames_acc] at hf
  | cons c rest ih =>
    intro i co dof f hf
    simp only [frames_acc] at hf ⊢
    rcases List.mem_cons.mp hf with rfl | hf
    · simp
    · obtain ⟨hle, hget⟩ := ih (i + 1) (co + (compress c).length) (dof + c.length) f hf
      refine ⟨by omega, ?_⟩
      have : f.index - i = (f.index - (i + 1)) + 1 := by omega
      rw [this, List.getD_cons_succ]
      exact hget

theorem frames_acc_bounds (compress : List Nat → List Nat) :
    ∀ (cs : List (List Nat)) (i co dof : Nat), (∀ c ∈ cs, c ≠ []) →
      ∀ f ∈ frames_acc compress cs i co dof,
        dof ≤ f.decompressed_offset ∧
        f.decompressed_offset + f.decompressed_size ≤ dof + (cs.map List.length).sum ∧
        0 < f.decompressed_size := by
  intro cs
  induction cs with
  | nil => intro i co dof _ f hf; simp [frames_acc] at hf
  | cons c rest ih =>
    intro i co dof hne f hf
    have hc : 1 ≤ c.length := List.length_pos.mpr (hne c (by simp))
    simp only [frames_acc] at hf
    rcases List.mem_cons.mp hf with rfl | hf
    · simp only [List.map_cons, List.sum_cons]
      omega
    · obtain ⟨h1, h2, h3⟩ := ih (i + 1) (co + (compress c).length) (dof + c.length)
        (fun x hx => hne x (List.mem_cons_of_mem c hx)) f hf
      simp only [List.map_cons, List.sum_cons]
      omega

theorem frames_acc_sizes (compress : List Nat → List Nat) :
    ∀ (cs : List (List Nat)) (i co dof : Nat),
      ∀ f ∈ frames_acc compress cs i co dof,
        ∃ c ∈ cs, f.compressed_size = (compress c).length ∧ f.decompressed_size = c.length := by
  intro cs
  induction cs with
  | nil => intro i co dof f hf; simp [frames_acc] at hf
  | cons c rest ih =>
    intro i co dof f hf
    simp only [frames_acc] at hf
    rcases List.mem_cons.mp hf with rfl | hf
    · exact ⟨c, by simp⟩
    · obtain ⟨c', hc', h1, h2⟩ := ih (i + 1) (co + (compress c).length) (dof + c.length) f hf
      exact ⟨c', List.mem_cons_of_mem c hc', h1, h2⟩

theorem parse_u32le_u32le {n : Nat} (h : n < 4294967296) : parse_u32le (u32le n) = n := by
  simp only [u32le, parse_u32le, List.getD]
  simp
  omega

theorem u32le_length (n : Nat) : (u32le n).length = 4 := rfl

theorem parse_entries_roundtrip (compress : List Nat → List Nat) :
    ∀ (cs : List (List Nat)) (i co dof : Nat),
      (∀ f ∈ frames_acc compress cs i co dof,
        f.compressed_size < 4294967296 ∧ f.decompressed_size < 4294967296) →
      parse_seek_entries 8 cs.length
        (((frames_acc compress cs i co dof).map
          (fun f => u32le f.compressed_size ++ u32le f.decompressed_size)).flatten) i co dof
        = frames_acc compress cs i co dof := by
  intro cs
  induction cs with
  | nil => intro i co dof _; rfl
  | cons c rest ih =>
    intro i co dof hbound
    obtain ⟨hcb, hdb⟩ := hbound (FrameInfo.mk i co (compress c).length dof c.length)
      (by simp [frames_acc])
    simp only [frames_acc, List.map_cons, List.flatten_cons, List.length_cons]
    simp only [parse_seek_entries]
    have htake4 : ((u32le (compress c).length ++ u32le c.length) ++
        ((frames_acc compress rest (i + 1) (co + (compress c).length) (dof + c.length)).map
          (fun f => u32le f.compressed_size ++ u32le f.decompressed_size)).flatten).take 4
        = u32le (compress c).length := by
      rw [List.append_assoc, List.take_left' (u32le_length _)]
    have hdrop4 : (((u32le (compress c).length ++ u32le c.length) ++
        ((frames_acc compress rest (i + 1) (co + (compress c).length) (dof + c.length)).map
          (fun f => u32le f.compressed_size ++ u32le f.decompressed_size)).flatten).drop 4).take 4
        = u32le c.length := by
      rw [List.append_assoc, List.drop_left' (u32le_length _), List.take_left' (u32le_length _)]
    have hdrop8 : ((u32le (compress c).length ++ u32le c.length) ++
        ((frames_acc compress rest (i + 1) (co + (compress c).length) (dof + c.length)).map
          (fun f => u32le f.compressed_size ++ u32le f.decompressed_size)).flatten).drop 8
        = ((frames_acc compress rest (i + 1) (co + (compress c).length) (dof + c.length)).map
          (fun f => u32le f.compressed_size ++ u32le f.decompressed_size)).flatten := by
      rw [List.drop_left' (by simp [u32le_length])]
    rw [htake4, hdrop4, hdrop8, parse_u32le_u32le (by simpa using hcb),
      parse_u32le_u32le (by simpa using hdb)]
    rw [ih (i + 1) (co + (compress c).length) (dof + c.length)
      (fun f hf => hbound f (by simp [frames_acc, List.mem_cons_of_mem, hf]))]

theorem entries_length (frames : List FrameInfo) :
    ((frames.map (fun f => u32le f.compressed_size ++ u32le f.decompressed_size)).flatten).length
      = 8 * frames.length := by
  induction frames with
  | nil => rfl
  | cons f rest ih =>
    simp only [List.map_cons, List.flatten_cons, List.length_append, ih, List.length_cons,
      List.length_append, u32le_length]
    omega

theorem read_seek_table_create (compress : List Nat → List Nat) (frame_size : Nat)
    (input : List Nat)
    (hsizes : ∀ f ∈ frames_acc compress (pyzstd_chunks frame_size input) 0 0 0,
      f.compressed_size < 4294967296 ∧ f.decompressed_size < 4294967296)
    (hk : (pyzstd_chunks frame_size input).length < 4294967296) :
    read_seek_table (create_with_pyzstd compress frame_size input)
      = some (frames_acc compress (pyzstd_chunks frame_size input) 0 0 0) := by
  set chunks := pyzstd_chunks frame_size input with hchunks
  set table := frames_acc compress chunks 0 0 0 with htable
  set body := (chunks.map compress).flatten with hbody
  set entries :=
    (table.map (fun f => u32le f.compressed_size ++ u32le f.decompressed_size)).flatten
    with hentries
  set footer := u32le SEEK_TABLE_FOOTER_MAGIC ++ u32le table.length ++ [0] with hfooter
  set header := u32le SEEKABLE_MAGIC ++ u32le (entries ++ footer).length with hheader
  have hktable : table.length = chunks.length := frames_acc_length compress chunks 0 0 0
  have hflen : footer.length = 9 := by simp [hfooter, u32le_length]
  have helen : entries.length = 8 * table.length := entries_length table
  have hhlen : header.length = 8 := by simp [hheader, u32le_length]
  have hfile : create_with_pyzstd compress frame_size input
      = (body ++ header ++ entries) ++ footer := by
    simp only [create_with_pyzstd, write_seek_table, ← hchunks, ← htable, ← hbody, ← hentries,
      ← hfooter, ← hheader]
    simp [List.append_assoc]
  rw [hfile]
  have hlen : ((body ++ header ++ entries) ++ footer).length
      = body.length + 8 + 8 * table.length + 9 := by
    simp [hhlen, helen, hflen]
    omega
  have hnot9 : ¬ ((body ++ header ++ entries) ++ footer).length < 9 := by omega
  have hfooter_eq : ((body ++ header ++ entries) ++ footer).drop
      (((body ++ header ++ entries) ++ footer).length - 9) = footer := by
    apply List.drop_left'
    simp [hhlen, helen, hflen]
    omega
  have hmagic : parse_u32le (footer.take 4) = SEEK_TABLE_FOOTER_MAGIC := by
    rw [hfooter, List.append_assoc, List.take_left' (u32le_length _)]
    exact parse_u32le_u32le (by norm_num [SEEK_TABLE_FOOTER_MAGIC])
  have hnum : parse_u32le ((footer.drop 4).take 4) = table.length := by
    rw [hfooter, List.append_assoc, List.drop_left' (u32le_length _),
      List.take_left' (u32le_length _)]
    exact parse_u32le_u32le (by omega)
  have hflags : footer.getD 8 0 = 0 := by
    rw [hfooter]
    rfl
  have hdata : (((body ++ header ++ entries) ++ footer).drop
        (((body ++ header ++ entries) ++ footer).length - 9 - table.length * 8)).take
          (table.length * 8) = entries := by
    have hassoc : (body ++ header ++ entries) ++ footer
        = (body ++ header) ++ (entries ++ footer) := by
      simp [List.append_assoc]
    rw [hassoc]
    have hn : ((body ++ header) ++ (entries ++ footer)).length - 9 - table.length * 8
        = (body ++ header).length := by
      simp only [List.length_append, hhlen, hflen, helen]
      omega
    rw [hn, List.drop_left]
    exact List.take_left' (by omega)
  simp only [read_seek_table]
  rw [if_neg hnot9, hfooter_eq, hmagic, if_neg (by simp), hnum, hflags]
  have h02 : ¬ ((0 : Nat) % 2 = 1) := by norm_num
  rw [if_neg h02]
  rw [if_neg (by omega : ¬ ((body ++ header ++ entries) ++ footer).length < 9 + table.length * 8)]
  rw [hdata]
  rw [hentries, hktable]
  rw [parse_entries_roundtrip compress chunks 0 0 0 (by rw [← htable]; exact hsizes)]

theorem frames_contrib (compress decompress : List Nat → List Nat)
    (hinv : ∀ b, decompress (compress b) = b) (FILE : List Nat) (n : Nat) :
    ∀ (cs : List (List Nat)) (i co dof : Nat),
      (FILE.drop co).take ((cs.map (fun c => (compress c).length)).sum)
        = (cs.map compress).flatten →
      dof + (cs.map List.length).sum ≤ n →
      ((frames_acc compress cs i co dof).map (fun f =>
        (decompress ((FILE.drop f.compressed_offset).take f.compressed_size)).take
          (min (decompress ((FILE.drop f.compressed_offset).take f.compressed_size)).length
            (n - f.decompressed_offset)))).flatten = cs.flatten := by
  intro cs
  induction cs with
  | nil => intro i co dof _ _; rfl
  | cons c rest ih =>
    intro i co dof hpre hle
    simp only [List.map_cons, List.sum_cons, List.flatten_cons] at hpre hle ⊢
    simp only [frames_acc, List.map_cons, List.flatten_cons]
    have hslice : (FILE.drop co).take (compress c).length = compress c := by
      have h1 : (FILE.drop co).take (compress c).length
          = ((FILE.drop co).take ((compress c).length
              + (rest.map (fun c => (compress c).length)).sum)).take (compress c).length := by
        rw [List.take_take, min_eq_left (by omega)]
      rw [h1, hpre, List.take_left' rfl]
    have hfd : decompress ((FILE.drop co).take (compress c).length) = c := by
      rw [hslice, hinv]
    have hhead : (decompress ((FILE.drop co).take (compress c).length)).take
        (min (decompress ((FILE.drop co).take (compress c).length)).length (n - dof)) = c := by
      rw [hfd, min_eq_left (by omega), List.take_length]
    have hpre' : (FILE.drop (co + (compress c).length)).take
        ((rest.map (fun c => (compress c).length)).sum) = (rest.map compress).flatten := by
      have h2 := congrArg (List.drop (compress c).length) hpre
      rw [List.drop_take, List.drop_drop, List.drop_left' rfl] at h2
      rw [← h2]
      congr 1
      omega
    rw [hhead, ih (i + 1) (co + (compress c).length) (dof + c.length) hpre' (by omega)]

/-- C1: the seekable-zstd round trip.  For every input chunked and
compressed by the pure-Python creation path (an arbitrary codec with
`decompress ∘ compress = id` stands in for zstd, and the `struct.pack`
32-bit bounds hold), reading back the seek table and decompressing the
full range `[0, n)`, `n` the total decompressed size recorded in the
table, returns exactly the original input bytes. -/
theorem c1_seekable_roundtrip (compress decompress : List Nat → List Nat)
    (hinv : ∀ b, decompress (compress b) = b) (frame_size : Nat) (input : List Nat)
    (hfs : 0 < frame_size)
    (hcsize : ∀ c ∈ pyzstd_chunks frame_size input, (compress c).length < 4294967296)
    (hn : input.length < 4294967296) :
    read_seek_table (create_with_pyzstd compress frame_size input)
      = some (frames_acc compress (pyzstd_chunks frame_size input) 0 0 0) ∧
    ((frames_acc compress (pyzstd_chunks frame_size input) 0 0 0).map
      FrameInfo.decompressed_size).sum = input.length ∧
    decompress_range decompress (create_with_pyzstd compress frame_size input)
      (frames_acc compress (pyzstd_chunks frame_size input) 0 0 0) 0
      (((frames_acc compress (pyzstd_chunks frame_size input) 0 0 0).map
        FrameInfo.decompressed_size).sum) = input := by
  set chunks := pyzstd_chunks frame_size input with hchunks
  have hflat : chunks.flatten = input := pyzstd_chunks_flatten frame_size hfs input
  have hcne : ∀ c ∈ chunks, c ≠ [] := pyzstd_chunks_ne_nil frame_size hfs input
  set table := frames_acc compress chunks 0 0 0 with htable
  have hmaxlen : ∀ c ∈ chunks, c.length ≤ input.length := by
    intro c hc
    calc c.length ≤ (chunks.map List.length).sum :=
          List.single_le_sum (by simp) _ (List.mem_map_of_mem _ hc)
    _ = chunks.flatten.length := (List.length_flatten chunks).symm
    _ = input.length := by rw [hflat]
  have hsizes : ∀ f ∈ table, f.compressed_size < 4294967296 ∧
      f.decompressed_size < 4294967296 := by
    intro f hf
    obtain ⟨c, hc, h1, h2⟩ := frames_acc_sizes compress chunks 0 0 0 f hf
    refine ⟨h1 ▸ hcsize c hc, ?_⟩
    rw [h2]
    have := hmaxlen c hc
    omega
  have hklt : chunks.length < 4294967296 := by
    have h1 := length_le_flatten_length chunks hcne
    rw [hflat] at h1
    omega
  have hread : read_seek_table (create_with_pyzstd compress frame_size input) = some table :=
    read_seek_table_create compress frame_size input hsizes hklt
  have hsum : (table.map FrameInfo.decompressed_size).sum = input.length := by
    rw [htable, frames_acc_ds_sum, ← List.length_flatten, hflat]
  refine ⟨hread, hsum, ?_⟩
  by_cases hinput : input = []
  · subst hinput
    have hchn : chunks = [] := by
      cases hczz : chunks with
      | nil => rfl
      | cons c cs =>
        exfalso
        have hcin : c ∈ chunks := by rw [hczz]; simp
        have hcnemp := hcne c hcin
        rw [hczz] at hflat
        simp only [List.flatten_cons] at hflat
        rcases List.append_eq_nil.mp hflat with ⟨h1, _⟩
        exact hcnemp h1
    rw [hsum]
    rw [htable, hchn]
    rfl
  · have hchne : chunks ≠ [] := by
      intro h
      rw [h] at hflat
      exact hinput hflat.symm
    set n := (table.map FrameInfo.decompressed_size).sum with hn2
    have hbounds := frames_acc_bounds compress chunks 0 0 0 hcne
    have hsum_len : (chunks.map List.length).sum = n := by
      rw [hn2, htable, frames_acc_ds_sum]
    have hfilter : table.filter (fun f =>
        f.decompressed_offset < 0 + n && 0 < f.decompressed_end) = table := by
      apply List.filter_eq_self.mpr
      intro f hf
      obtain ⟨h1, h2, h3⟩ := hbounds f (htable ▸ hf)
      rw [hsum_len] at h2
      simp only [Bool.and_eq_true, decide_eq_true_eq, FrameInfo.decompressed_end]
      omega
    have htne : ¬ (table.map FrameInfo.index).isEmpty := by
      have : table.length = chunks.length := frames_acc_length compress chunks 0 0 0
      simp only [List.isEmpty_iff, List.map_eq_nil_iff]
      intro h
      rw [h] at this
      exact hchne (List.length_eq_zero.mp this.symm)
    simp only [decompress_range, hfilter]
    rw [if_neg htne]
    rw [List.map_map]
    have hmapeq : table.map ((fun idx =>
        ((decompress_frame decompress (create_with_pyzstd compress frame_size input)
          table idx).drop (0 - (table.getD idx default).decompressed_offset)).take
          (min (decompress_frame decompress (create_with_pyzstd compress frame_size input)
            table idx).length
            (0 + n - (table.getD idx default).decompressed_offset)
            - (0 - (table.getD idx default).decompressed_offset))) ∘ FrameInfo.index)
        = table.map (fun f =>
          (decompress (((create_with_pyzstd compress frame_size input).drop
            f.compressed_offset).take f.compressed_size)).take
            (min (decompress (((create_with_pyzstd compress frame_size input).drop
              f.compressed_offset).take f.compressed_size)).length
              (n - f.decompressed_offset))) := by
      apply List.map_congr_left
      intro f hf
      obtain ⟨hle0, hget⟩ := frames_acc_retrieve compress chunks 0 0 0 f (htable ▸ hf)
      rw [Nat.sub_zero] at hget
      simp only [Function.comp]
      rw [← htable] at hget
      rw [hget]
      simp only [decompress_frame, hget, Nat.zero_sub, Nat.zero_add, List.drop_zero,
        Nat.sub_zero]
    rw [hmapeq]
    rw [frames_contrib compress decompress hinv (create_with_pyzstd compress frame_size input)
      n chunks 0 0 0 ?hpre ?hle]
    case hpre =>
      have hbody : ((chunks.map (fun c => (compress c).length)).sum)
          = ((chunks.map compress).flatten).length := by
        rw [List.length_flatten, List.map_map]
        rfl
      rw [List.drop_zero, hbody]
      have hcreate : create_with_pyzstd compress frame_size input
          = (chunks.map compress).flatten
            ++ write_seek_table (frames_acc compress chunks 0 0 0) := by
        simp [create_with_pyzstd, ← hchunks]
      rw [hcreate, List.take_left]
    case hle =>
      rw [hsum_len]
      omega
    rw [hflat]
    rw [hsum]
    exact List.take_length input

/-- Witness for C1: the identity codec on the file `b"a\nb\n"` with frame
size 3 round-trips through the container. -/
theorem c1_witness :
    (∀ b : List Nat, id (id b) = b) ∧ (0 : Nat) < 3 ∧
      (∀ c ∈ pyzstd_chunks 3 [97, 10, 98, 10], (id c).length < 4294967296) ∧
      ([97, 10, 98, 10] : List Nat).length < 4294967296 ∧
      decompress_range id (create_with_pyzstd id 3 [97, 10, 98, 10])
        (frames_acc id (pyzstd_chunks 3 [97, 10, 98, 10]) 0 0 0) 0
        (((frames_acc id (pyzstd_chunks 3 [97, 10, 98, 10]) 0 0 0).map
          FrameInfo.decompressed_size).sum) = [97, 10, 98, 10] :=
  ⟨fun _ => rfl, by decide, by decide, by decide,
    (c1_seekable_roundtrip id id (fun _ => rfl) 3 [97, 10, 98, 10] (by decide) (by decide)
      (by decide)).2.2⟩
